import Mathlib

/-!
Verification of the frigg dashboard-pruning pipeline.

The development shallowly embeds the Go sources:
* `loki/client.go` — the paginated log-range reader (`QueryRange`);
* `grafana` client — chunked log querying (`queryLogs`), usage aggregation
  (`processLogs`, `UsedDashboards`), and backup-then-delete
  (`DeleteDashboard`);
* the dashboard pruner (`prune`);
* `github/client.go` — the backup gate (`BackUpDashboard`).

Timestamps are nanosecond epochs modelled as `Nat`.  The remote Loki store is
modelled as a list of log entries sorted by timestamp; a single page request
returns the first `limit` entries whose timestamp lies in `[start, end)`
(Loki's documented range-query semantics, start inclusive and end exclusive,
`direction=forward`).  Side-effecting remote calls (backup, delete, file
create/update) are modelled by recording an explicit action trace.
-/

/-- A log entry as produced by `loki.Client.queryRangePage`: a nanosecond
timestamp, the log line, and the flat label map of the stream the entry
belongs to (`loki.Log` in `loki/client.go`). -/
structure Log where
  ts : Nat
  message : String
  stream : List (String × String)
deriving DecidableEq

/-- The entries of the store whose timestamp lies in the half-open range
`[start, e)` — exactly the entries a Loki range query with
`direction=forward` pages through. -/
def inRange (store : List Log) (start e : Nat) : List Log :=
  store.filter fun l => decide (start ≤ l.ts) && decide (l.ts < e)

/-- One `query_range` page (`loki.Client.queryRangePage`): the store answers
with the first `limit` in-range entries in ascending order. -/
def queryRangePage (store : List Log) (limit : Nat) (start e : Nat) : List Log :=
  (inRange store start e).take limit

/-- The pagination loop of `loki.Client.QueryRange`, together with the number
of page requests issued.  The loop stops when a page returns fewer than
`limit` entries; otherwise the next page starts one nanosecond after the last
returned entry's timestamp.  The Go loop has no fuel parameter; fuel only
forces termination in Lean and `QueryRange` below supplies enough of it for
every execution the Go loop completes (the Go loop never terminates when
`limit = 0`, which the constructor's callers exclude). -/
def queryRangeAux (store : List Log) (limit e : Nat) : Nat → Nat → List Log × Nat
  | 0, _ => ([], 0)
  | fuel + 1, start =>
    let logs := queryRangePage store limit start e
    if logs.length < limit then
      (logs, 1)
    else
      match logs.getLast? with
      | none => (logs, 1)
      | some lastLog =>
        let next := queryRangeAux store limit e fuel (lastLog.ts + 1)
        (logs ++ next.1, next.2 + 1)

/-- Model of `loki.Client.QueryRange`: reads the range `[start, e)` from the store,
paginating forward; returns the concatenated entries and the number of page
requests issued. -/
def QueryRange (store : List Log) (limit : Nat) (start e : Nat) : List Log × Nat :=
  queryRangeAux store limit e (store.length + 1) start

/-- Number of entries of `logs` carrying the exact timestamp `t`. -/
def countTs (t : Nat) (logs : List Log) : Nat :=
  logs.countP fun l => decide (l.ts = t)

theorem mem_of_getLast?_eq_some {l : List Log} {m : Log}
    (h : l.getLast? = some m) : m ∈ l := by
  induction l with
  | nil => simp at h
  | cons a t ih =>
    cases t with
    | nil => simp_all
    | cons b t' =>
      rw [List.getLast?_cons_cons] at h
      exact List.mem_cons_of_mem _ (ih h)

theorem ts_le_of_getLast? {l : List Log} {x m : Log}
    (hs : l.Pairwise fun a b => a.ts ≤ b.ts) (hx : x ∈ l)
    (h : l.getLast? = some m) : x.ts ≤ m.ts := by
  induction l with
  | nil => simp at hx
  | cons a t ih =>
    cases t with
    | nil =>
      simp only [List.getLast?_singleton, Option.some.injEq] at h
      simp only [List.mem_singleton] at hx
      subst hx h; exact le_refl _
    | cons b t' =>
      rw [List.getLast?_cons_cons] at h
      rcases List.mem_cons.mp hx with rfl | hx'
      · have hm : m ∈ b :: t' := mem_of_getLast?_eq_some h
        exact (List.pairwise_cons.mp hs).1 m hm
      · exact ih (List.pairwise_cons.mp hs).2 hx' h

theorem inRange_sorted {store : List Log} {start e : Nat}
    (hs : store.Pairwise fun a b => a.ts ≤ b.ts) :
    (inRange store start e).Pairwise fun a b => a.ts ≤ b.ts :=
  hs.filter _

theorem mem_inRange {store : List Log} {start e : Nat} {l : Log} :
    l ∈ inRange store start e ↔ l ∈ store ∧ start ≤ l.ts ∧ l.ts < e := by
  simp [inRange, List.mem_filter]

/-- Every entry returned by the pagination loop has a timestamp at or after
the start of the range requested. -/
theorem queryRangeAux_ts_lower_bound (store : List Log) (limit e : Nat) :
    ∀ fuel start l, l ∈ (queryRangeAux store limit e fuel start).1 → start ≤ l.ts := by
  intro fuel
  induction fuel with
  | zero => intro start l h; simp [queryRangeAux] at h
  | succ n ih =>
    intro start l h
    simp only [queryRangeAux] at h
    by_cases hlt : (queryRangePage store limit start e).length < limit
    · simp only [if_pos hlt] at h
      exact (mem_inRange.mp (List.mem_of_mem_take h)).2.1
    · simp only [if_neg hlt] at h
      cases hlast : (queryRangePage store limit start e).getLast? with
      | none =>
        simp only [hlast] at h
        exact (mem_inRange.mp (List.mem_of_mem_take h)).2.1
      | some lastLog =>
        simp only [hlast, List.mem_append] at h
        rcases h with h | h
        · exact (mem_inRange.mp (List.mem_of_mem_take h)).2.1
        · have h1 := ih (lastLog.ts + 1) l h
          have h2 : start ≤ lastLog.ts := by
            have hmem : lastLog ∈ queryRangePage store limit start e :=
              mem_of_getLast?_eq_some hlast
            exact (mem_inRange.mp (List.mem_of_mem_take hmem)).2.1
          omega

/-- No run of the pagination loop ever returns more than `limit` entries that
share a single exact timestamp: all entries at one timestamp sit inside one
page (of size at most `limit`), and the cursor then advances past that
timestamp. -/
theorem queryRangeAux_countTs_le (store : List Log) (limit e t : Nat)
    (hs : store.Pairwise fun a b => a.ts ≤ b.ts) :
    ∀ fuel start, countTs t (queryRangeAux store limit e fuel start).1 ≤ limit := by
  intro fuel
  induction fuel with
  | zero => intro start; simp [queryRangeAux, countTs]
  | succ n ih =>
    intro start
    have hpagelen : (queryRangePage store limit start e).length ≤ limit := by
      simp [queryRangePage]
    simp only [queryRangeAux]
    by_cases hlt : (queryRangePage store limit start e).length < limit
    · simp only [if_pos hlt]
      exact le_trans (List.countP_le_length _) hpagelen
    · simp only [if_neg hlt]
      cases hlast : (queryRangePage store limit start e).getLast? with
      | none => exact le_trans (List.countP_le_length _) hpagelen
      | some lastLog =>
        simp only [countTs, List.countP_append]
        by_cases hzero :
            countTs t (queryRangePage store limit start e) = 0
        · have := ih (lastLog.ts + 1)
          simp only [countTs] at hzero this
          omega
        · have hmem : ∃ x ∈ queryRangePage store limit start e, x.ts = t := by
            by_contra hcon
            push_neg at hcon
            have : countTs t (queryRangePage store limit start e) = 0 := by
              simp only [countTs]
              rw [List.countP_eq_zero]
              intro a ha
              simpa using hcon a ha
            exact hzero this
          obtain ⟨x, hx, hxt⟩ := hmem
          have hxle : x.ts ≤ lastLog.ts := by
            have hsorted : (queryRangePage store limit start e).Pairwise
                fun a b => a.ts ≤ b.ts :=
              List.Pairwise.sublist (List.take_sublist _ _) (inRange_sorted hs)
            exact ts_le_of_getLast? hsorted hx hlast
          have hrest : countTs t (queryRangeAux store limit e n (lastLog.ts + 1)).1 = 0 := by
            simp only [countTs]
            rw [List.countP_eq_zero]
            intro a ha
            have := queryRangeAux_ts_lower_bound store limit e n (lastLog.ts + 1) a ha
            simp only [decide_eq_true_eq]
            omega
          simp only [countTs] at hrest
          have hcount := List.countP_le_length (fun l => decide (l.ts = t))
            (l := queryRangePage store limit start e)
          omega

/-- Unfolding the pagination loop when the page is short: the loop stops. -/
theorem queryRangeAux_succ_lt {store : List Log} {limit e start n : Nat}
    (h : (queryRangePage store limit start e).length < limit) :
    queryRangeAux store limit e (n + 1) start =
      (queryRangePage store limit start e, 1) := by
  simp [queryRangeAux, h]

/-- Unfolding the pagination loop when the page is full: the loop recurses
one nanosecond past the last returned entry. -/
theorem queryRangeAux_succ_full {store : List Log} {limit e start n : Nat} {m : Log}
    (h : ¬(queryRangePage store limit start e).length < limit)
    (hlast : (queryRangePage store limit start e).getLast? = some m) :
    queryRangeAux store limit e (n + 1) start =
      (queryRangePage store limit start e ++
          (queryRangeAux store limit e n (m.ts + 1)).1,
        (queryRangeAux store limit e n (m.ts + 1)).2 + 1) := by
  simp [queryRangeAux, h, hlast]

/-- After a page ending in entry `m`, restarting the range at `m.ts + 1`
sees exactly the in-range entries beyond the first `limit` — provided no two
store entries share a timestamp. -/
theorem inRange_after_page {store : List Log} {start e limit : Nat} {m : Log}
    (hs : store.Pairwise fun a b => a.ts < b.ts)
    (hlast : (queryRangePage store limit start e).getLast? = some m) :
    inRange store (m.ts + 1) e = (inRange store start e).drop limit := by
  have hmpage : m ∈ queryRangePage store limit start e :=
    mem_of_getLast?_eq_some hlast
  have hmL : m ∈ inRange store start e := List.mem_of_mem_take hmpage
  have hstartm : start ≤ m.ts := (mem_inRange.mp hmL).2.1
  have step1 : inRange store (m.ts + 1) e =
      (inRange store start e).filter fun l => decide (m.ts + 1 ≤ l.ts) := by
    simp only [inRange, List.filter_filter]
    apply List.filter_congr
    intro a _
    by_cases hx : m.ts + 1 ≤ a.ts
    · have : start ≤ a.ts := by omega
      simp [hx, this]
    · simp [hx]
  rw [step1]
  have hsplit := List.take_append_drop limit (inRange store start e)
  have hTfil : (queryRangePage store limit start e).filter
      (fun l => decide (m.ts + 1 ≤ l.ts)) = [] := by
    rw [List.filter_eq_nil_iff]
    intro a ha
    have hsortedT : (queryRangePage store limit start e).Pairwise
        fun a b => a.ts ≤ b.ts :=
      List.Pairwise.sublist (List.take_sublist _ _)
        (inRange_sorted (hs.imp fun h => le_of_lt h))
    have := ts_le_of_getLast? hsortedT ha hlast
    simp only [decide_eq_true_eq]
    omega
  have hDfil : ((inRange store start e).drop limit).filter
      (fun l => decide (m.ts + 1 ≤ l.ts)) = (inRange store start e).drop limit := by
    rw [List.filter_eq_self]
    intro a ha
    have hLsorted : (inRange store start e).Pairwise fun a b => a.ts < b.ts :=
      hs.filter _
    have hcross := (List.pairwise_append.mp (by rwa [hsplit])).2.2
    have := hcross m hmpage a ha
    simp only [decide_eq_true_eq]
    omega
  calc ((inRange store start e).filter fun l => decide (m.ts + 1 ≤ l.ts))
      = ((queryRangePage store limit start e ++
          (inRange store start e).drop limit).filter
            fun l => decide (m.ts + 1 ≤ l.ts)) := by
        rw [show queryRangePage store limit start e ++
            (inRange store start e).drop limit = inRange store start e from hsplit]
    _ = (inRange store start e).drop limit := by
        rw [List.filter_append, hTfil, hDfil, List.nil_append]

/-- With strictly increasing timestamps and a positive limit, the pagination
loop (given sufficient fuel) returns every in-range entry and issues
`⌊N / limit⌋ + 1` page requests. -/
theorem queryRangeAux_complete (store : List Log) (limit e : Nat)
    (hs : store.Pairwise fun a b => a.ts < b.ts) (hl : 0 < limit) :
    ∀ fuel start, (inRange store start e).length < fuel * limit →
      queryRangeAux store limit e fuel start =
        (inRange store start e, (inRange store start e).length / limit + 1) := by
  intro fuel
  induction fuel with
  | zero => intro start h; simp at h
  | succ n ih =>
    intro start hN
    by_cases hlt : (queryRangePage store limit start e).length < limit
    · have hLlen : (inRange store start e).length < limit := by
        simp only [queryRangePage, List.length_take] at hlt
        omega
      have hpage : queryRangePage store limit start e = inRange store start e :=
        List.take_of_length_le (le_of_lt hLlen)
      rw [queryRangeAux_succ_lt hlt, hpage, Nat.div_eq_of_lt hLlen]
    · have hLlim : limit ≤ (inRange store start e).length := by
        simp only [queryRangePage, List.length_take] at hlt
        omega
      cases hlast : (queryRangePage store limit start e).getLast? with
      | none =>
        exfalso
        have hnil : queryRangePage store limit start e = [] :=
          List.getLast?_eq_none_iff.mp hlast
        have := congrArg List.length hnil
        simp only [queryRangePage, List.length_take, List.length_nil] at this
        omega
      | some m =>
        have hkey := inRange_after_page hs hlast
        have hih : (inRange store (m.ts + 1) e).length < n * limit := by
          rw [hkey, List.length_drop]
          have hsm : (n + 1) * limit = n * limit + limit := by ring
          rw [hsm] at hN
          revert hN
          generalize n * limit = M
          intro hN
          omega
        have hnext := ih (m.ts + 1) hih
        rw [queryRangeAux_succ_full hlt hlast, hnext, hkey]
        simp only [Prod.mk.injEq]
        constructor
        · simpa only [queryRangePage] using
            List.take_append_drop limit (inRange store start e)
        · rw [List.length_drop, Nat.div_eq_sub_div hl hLlim]

/-- Completeness of `QueryRange` with its real fuel budget: completeness on stores with
strictly increasing timestamps. -/
theorem QueryRange_complete (store : List Log) (limit start e : Nat)
    (hs : store.Pairwise fun a b => a.ts < b.ts) (hl : 0 < limit) :
    QueryRange store limit start e =
      (inRange store start e, (inRange store start e).length / limit + 1) := by
  apply queryRangeAux_complete store limit e hs hl
  have h1 : (inRange store start e).length ≤ store.length :=
    List.length_filter_le _ _
  have h2 : store.length + 1 ≤ (store.length + 1) * limit :=
    Nat.le_mul_of_pos_right _ hl
  exact lt_of_lt_of_le (Nat.lt_succ_of_le h1) h2

/-- A store holding one single entry, in range of the query `[0, 10)`. -/
def c1Store : List Log := [⟨5, "m", []⟩]

/-- C1 counterexample.  With one in-range entry and `limit = 1`, the store
serves exactly `limit` entries on the first page and a shorter (empty) final
page, yet `QueryRange` issues 2 page requests while the claim predicts
`⌈N / limit⌉ = ⌈1 / 1⌉ = 1`: when `limit` divides `N`, the loop needs one
extra request to observe the short page. -/
theorem C1_counterexample :
    (QueryRange c1Store 1 0 10).2 ≠
      ((inRange c1Store 0 10).length + 1 - 1) / 1 := by decide

/-- C1, amended.  For stores with strictly increasing timestamps and a
positive page limit, `QueryRange` returns exactly the in-range entries, in
ascending timestamp order, and issues `⌊N / limit⌋ + 1` page requests —
which agrees with the claimed `⌈N / limit⌉` exactly when `limit` does not
divide `N`. -/
theorem C1_theorem (store : List Log) (limit start e : Nat)
    (hs : store.Pairwise fun a b => a.ts < b.ts) (hl : 0 < limit) :
    (QueryRange store limit start e).1 = inRange store start e ∧
    ((QueryRange store limit start e).1.Pairwise fun a b => a.ts < b.ts) ∧
    (QueryRange store limit start e).2 =
      (inRange store start e).length / limit + 1 ∧
    (¬limit ∣ (inRange store start e).length →
      (QueryRange store limit start e).2 =
        ((inRange store start e).length + limit - 1) / limit) := by
  have hc := QueryRange_complete store limit start e hs hl
  refine ⟨by rw [hc], ?_, by rw [hc], ?_⟩
  · rw [hc]
    exact hs.filter _
  · intro hdvd
    rw [hc]
    have hr : (inRange store start e).length % limit ≠ 0 :=
      fun h => hdvd (Nat.dvd_of_mod_eq_zero h)
    have hqm := Nat.div_add_mod (inRange store start e).length limit
    have hrlt : (inRange store start e).length % limit < limit :=
      Nat.mod_lt _ hl
    set q := (inRange store start e).length / limit with hq
    set r := (inRange store start e).length % limit with hrdef
    have key : ∀ M, M + r = (inRange store start e).length →
        (inRange store start e).length + limit - 1 = r - 1 + (M + limit) := by
      intro M hM
      omega
    have hMul : limit * q + limit = limit * (q + 1) := by ring
    rw [key (limit * q) hqm, hMul,
      Nat.add_mul_div_left _ _ hl, Nat.div_eq_of_lt (by omega)]
    omega

/-- Witness store for the amended C1: three entries with strictly increasing
timestamps, read with `limit = 2` (so `N = 3` is not a multiple of the
limit). -/
def c1WitnessStore : List Log := [⟨1, "a", []⟩, ⟨2, "b", []⟩, ⟨3, "c", []⟩]

theorem C1_witness :
    (QueryRange c1WitnessStore 2 0 10).1 = inRange c1WitnessStore 0 10 ∧
    (QueryRange c1WitnessStore 2 0 10).2 =
      (inRange c1WitnessStore 0 10).length / 2 + 1 ∧
    (QueryRange c1WitnessStore 2 0 10).2 =
      ((inRange c1WitnessStore 0 10).length + 2 - 1) / 2 := by
  have h := C1_theorem c1WitnessStore 2 0 10 (by decide) (by decide)
  exact ⟨h.1, h.2.2.1, h.2.2.2 (by decide)⟩

/-- C2.  If `k > limit` entries of the store share one exact nanosecond
timestamp `t`, `QueryRange` returns at most `limit` entries at `t`; at least
`k - limit` of the in-range entries at `t` are therefore absent from the
result.  The call still succeeds — the loss is silent, not an error. -/
theorem C2_theorem (store : List Log) (limit start e t k : Nat)
    (hs : store.Pairwise fun a b => a.ts ≤ b.ts)
    (hk : countTs t (inRange store start e) = k) (hlim : limit < k) :
    countTs t (QueryRange store limit start e).1 ≤ limit ∧
    k - limit ≤
      countTs t (inRange store start e) -
        countTs t (QueryRange store limit start e).1 := by
  have h1 : countTs t (QueryRange store limit start e).1 ≤ limit :=
    queryRangeAux_countTs_le store limit e t hs (store.length + 1) start
  exact ⟨h1, by omega⟩

/-- Witness store for C2: three entries sharing timestamp 5, read with
`limit = 2` — only two of them come back. -/
def c2Store : List Log := [⟨5, "a", []⟩, ⟨5, "b", []⟩, ⟨5, "c", []⟩]

theorem C2_witness :
    countTs 5 (QueryRange c2Store 2 0 10).1 ≤ 2 ∧
    3 - 2 ≤
      countTs 5 (inRange c2Store 0 10) -
        countTs 5 (QueryRange c2Store 2 0 10).1 :=
  C2_theorem c2Store 2 0 10 5 3 (by decide) (by decide) (by decide)

theorem inRange_cons_pos {l : Log} {t : List Log} {s e : Nat}
    (h1 : s ≤ l.ts) (h2 : l.ts < e) :
    inRange (l :: t) s e = l :: inRange t s e := by
  simp [inRange, List.filter_cons, h1, h2]

theorem inRange_cons_neg {l : Log} {t : List Log} {s e : Nat}
    (h : ¬s ≤ l.ts ∨ ¬l.ts < e) :
    inRange (l :: t) s e = inRange t s e := by
  rcases h with h | h <;> simp [inRange, List.filter_cons, h]

/-- Splitting a range query at an intermediate instant `m`: for a store
sorted by timestamp, the entries of `[s, m)` followed by those of `[m, e)`
are exactly the entries of `[s, e)`.  This is what makes the sequential
chunk windows of `queryLogs` partition the overall range. -/
theorem inRange_split {store : List Log} {s m e : Nat}
    (hs : store.Pairwise fun a b => a.ts ≤ b.ts) (hsm : s ≤ m) (hme : m ≤ e) :
    inRange store s m ++ inRange store m e = inRange store s e := by
  induction store with
  | nil => simp [inRange]
  | cons l t ih =>
    have hpw := List.pairwise_cons.mp hs
    have iht := ih hpw.2
    rcases Nat.lt_or_ge l.ts m with hm | hm
    · rcases Nat.lt_or_ge l.ts s with hs' | hs'
      · rw [inRange_cons_neg (Or.inl (by omega)),
          inRange_cons_neg (Or.inl (by omega)),
          inRange_cons_neg (Or.inl (by omega)), iht]
      · rw [inRange_cons_pos hs' hm, inRange_cons_neg (Or.inl (by omega)),
          inRange_cons_pos hs' (by omega), List.cons_append, iht]
    · rcases Nat.lt_or_ge l.ts e with he | he
      · have hnil : inRange t s m = [] := by
          rw [inRange, List.filter_eq_nil_iff]
          intro x hx
          have := hpw.1 x hx
          simp only [Bool.and_eq_true, decide_eq_true_eq, not_and]
          omega
        have hcng : inRange t m e = inRange t s e := by
          apply List.filter_congr
          intro x hx
          have := hpw.1 x hx
          simp [show m ≤ x.ts by omega, show s ≤ x.ts by omega]
        rw [inRange_cons_neg (Or.inr (by omega)), inRange_cons_pos hm he,
          inRange_cons_pos (by omega) he, hnil, List.nil_append, hcng]
      · rw [inRange_cons_neg (Or.inr (by omega)),
          inRange_cons_neg (Or.inr (by omega)),
          inRange_cons_neg (Or.inr (by omega)), iht]

/-- The chunk loop of `grafana.Client.queryLogs`: starting at `chunkStart`,
query `[chunkStart, min (chunkStart + chunkSize) e)` and step forward by
`chunkSize` while the chunk start lies before `e`.  As with the pagination
loop, fuel only forces termination in Lean; `queryLogs` below supplies
enough of it whenever `chunkSize > 0` (the Go loop never terminates when
`chunkSize = 0`, and `UsedDashboards` always passes a positive chunk
size). -/
def queryLogsAux (store : List Log) (limit chunkSize e : Nat) :
    Nat → Nat → List Log
  | 0, _ => []
  | fuel + 1, chunkStart =>
    if chunkStart < e then
      (QueryRange store limit chunkStart (min (chunkStart + chunkSize) e)).1 ++
        queryLogsAux store limit chunkSize e fuel (chunkStart + chunkSize)
    else []

/-- Model of `grafana.Client.queryLogs`: reads `[start, e)` in sequential windows of
`chunkSize` nanoseconds (last window truncated at `e`), concatenating the
entries returned for each window. -/
def queryLogs (store : List Log) (limit chunkSize start e : Nat) : List Log :=
  queryLogsAux store limit chunkSize e (e - start + 1) start

theorem inRange_eq_nil_of_le (store : List Log) (s e : Nat) (h : e ≤ s) :
    inRange store s e = [] := by
  rw [inRange, List.filter_eq_nil_iff]
  intro x hx
  simp only [Bool.and_eq_true, decide_eq_true_eq, not_and]
  omega

/-- With strictly increasing timestamps, a positive limit and a positive
chunk size, the chunk loop returns exactly the in-range entries of the whole
range — the same list a single unchunked `QueryRange` returns. -/
theorem queryLogsAux_eq (store : List Log) (limit chunkSize e : Nat)
    (hs : store.Pairwise fun a b => a.ts < b.ts) (hl : 0 < limit)
    (hc : 0 < chunkSize) :
    ∀ fuel chunkStart, e - chunkStart < fuel →
      queryLogsAux store limit chunkSize e fuel chunkStart =
        inRange store chunkStart e := by
  intro fuel
  induction fuel with
  | zero => intro cs h; omega
  | succ n ih =>
    intro cs h
    by_cases hlt : cs < e
    · have hfst : (QueryRange store limit cs (min (cs + chunkSize) e)).1 =
          inRange store cs (min (cs + chunkSize) e) :=
        congrArg Prod.fst
          (QueryRange_complete store limit cs (min (cs + chunkSize) e) hs hl)
      simp only [queryLogsAux, if_pos hlt, hfst]
      rcases le_or_lt (cs + chunkSize) e with hle | hgt
      · rw [Nat.min_eq_left hle, ih (cs + chunkSize) (by omega)]
        exact inRange_split (hs.imp fun h => le_of_lt h) (by omega) hle
      · rw [Nat.min_eq_right (le_of_lt hgt), ih (cs + chunkSize) (by omega),
          inRange_eq_nil_of_le store (cs + chunkSize) e (by omega),
          List.append_nil]
    · simp only [queryLogsAux, if_neg hlt]
      rw [inRange_eq_nil_of_le store cs e (by omega)]

/-- Chunked reading equals unchunked reading, list-for-list, when no two
store entries share a timestamp. -/
theorem queryLogs_eq_unchunked (store : List Log) (limit chunkSize start e : Nat)
    (hs : store.Pairwise fun a b => a.ts < b.ts) (hl : 0 < limit)
    (hc : 0 < chunkSize) :
    queryLogs store limit chunkSize start e =
      (QueryRange store limit start e).1 := by
  rw [queryLogs, queryLogsAux_eq store limit chunkSize e hs hl hc _ start (by omega)]
  exact (congrArg Prod.fst (QueryRange_complete store limit start e hs hl)).symm

deriving instance DecidableEq for Except

/-- Lexicographic comparison of character lists by code point, the order Go
uses for `string < string` (bytewise comparison of UTF-8 data coincides with
code-point order). -/
def charListLt : List Char → List Char → Bool
  | [], [] => false
  | [], _ :: _ => true
  | _ :: _, [] => false
  | a :: as, b :: bs =>
    if a.toNat < b.toNat then true
    else if b.toNat < a.toNat then false
    else charListLt as bs

/-- Go string comparison `a < b`. -/
def strLt (a b : String) : Bool := charListLt a.data b.data

/-- Splitting a character list on a separator, matching `strings.Split` with
a one-character separator: `splitOnChar '/' "a//b"` gives `["a", "", "b"]`
and the empty list splits to one empty field. -/
def splitOnChar (sep : Char) : List Char → List (List Char)
  | [] => [[]]
  | c :: rest =>
    match splitOnChar sep rest with
    | [] => [[]]
    | p :: ps => if c = sep then [] :: p :: ps else (c :: p) :: ps

/-- The `strings.TrimSuffix(path, "/dto")` call at the top of
`extractPathVariables`: drop the final four characters when the list ends in
`/dto`, else return it unchanged. -/
def trimDto (cs : List Char) : List Char :=
  if cs.reverse.take 4 = ['o', 't', 'd', '/'] then cs.take (cs.length - 4)
  else cs

/-- A dashboard identity: its name together with its namespace (`namespace`
is a Lean keyword, so the field is spelled `nspace`). -/
structure DashboardKey where
  name : String
  nspace : String
deriving DecidableEq

/-- Model of `grafana.extractPathVariables`: parse
`/apis/dashboard.grafana.app/v1beta1/namespaces/:namespace/dashboards/:uid`
(optionally suffixed by `/dto`, which is stripped first) into a
`DashboardKey`.  The Go code splits on `/`, requires exactly 8 parts, and
checks parts 2, 4 and 6 against fixed literals; parts 5 and 7 become the
namespace and name. -/
def extractPathVariables (path : String) : Except String DashboardKey :=
  let pathParts := splitOnChar '/' (trimDto path.data)
  if pathParts.length ≠ 8 then
    .error "unexpected path format: wrong part count"
  else if pathParts.getD 2 [] ≠ "dashboard.grafana.app".data then
    .error "unexpected path format: bad third part"
  else if pathParts.getD 4 [] ≠ "namespaces".data then
    .error "unexpected path format: bad fifth part"
  else if pathParts.getD 6 [] ≠ "dashboards".data then
    .error "unexpected path format: bad seventh part"
  else
    .ok ⟨String.mk (pathParts.getD 7 []), String.mk (pathParts.getD 5 [])⟩

/-- One per-dashboard usage tally (`grafana.DashboardReads`): the dashboard
key, its total read count and its number of distinct named readers. -/
structure DashboardReads where
  name : String
  nspace : String
  reads : Nat
  users : Nat
deriving DecidableEq

/-- The key of a usage tally (`DashboardReads.Key`). -/
def DashboardReads.Key (d : DashboardReads) : DashboardKey :=
  ⟨d.name, d.nspace⟩

/-- The aggregation state of `processLogs`.  The Go code keeps two maps with
identical key sets — `readCounts : map[DashboardKey]int` and
`readsByKey : map[DashboardKey]map[string]struct{}` — updated in lockstep;
they are represented here as one association list in first-insertion order,
each entry holding the key, its read count and its set of distinct named
readers. -/
abbrev UsageState := List (DashboardKey × Nat × List String)

/-- Adding a user to the distinct-reader set of an entry (`map[string]`
insertion: a no-op when already present). -/
def insertUser (u : String) (users : List String) : List String :=
  if u ∈ users then users else users ++ [u]

/-- The loop body of `processLogs` for a counted line: bump the read count of
`key` and, when the line carries a username, record it in the reader set. -/
def countRead (st : UsageState) (key : DashboardKey) (user : String) :
    UsageState :=
  match st with
  | [] => [(key, 1, if user = "" then [] else [user])]
  | (k, c, us) :: rest =>
    if k = key then
      (k, c + 1, if user = "" then us else insertUser user us) :: rest
    else
      (k, c, us) :: countRead rest key user

/-- The log-scanning loop of `grafana.processLogs`: for each entry, find its
`path` stream label (missing label is a hard error), parse the dashboard key
(parse failure is a hard error), read the optional `uname` label (a Go map
read of a missing key yields `""`), skip the line entirely when the username
is non-empty and ignored, and otherwise count the read. -/
def processLogsAux (ignoredUsers : List String) :
    List Log → UsageState → Except String UsageState
  | [], st => .ok st
  | log :: rest, st =>
    match log.stream.lookup "path" with
    | none => .error "could not find path in stream labels"
    | some path =>
      match extractPathVariables path with
      | .error e => .error e
      | .ok key =>
        let user := (log.stream.lookup "uname").getD ""
        if user ≠ "" ∧ user ∈ ignoredUsers then
          processLogsAux ignoredUsers rest st
        else
          processLogsAux ignoredUsers rest (countRead st key user)

/-- The `sort.Slice` comparator at the end of `processLogs`: order tallies by
dashboard name, breaking equal names by namespace. -/
def dashboardLess (a b : DashboardReads) : Bool :=
  if a.name = b.name then strLt a.nspace b.nspace else strLt a.name b.name

/-- Insert into a sorted list, preserving sortedness w.r.t. `le`. -/
def insertSorted {α : Type} (le : α → α → Bool) (x : α) : List α → List α
  | [] => [x]
  | y :: ys => if le x y then x :: y :: ys else y :: insertSorted le x ys

/-- Insertion sort.  `processLogs` sorts with `sort.Slice` and the strict
comparator `dashboardLess`; because the keys of the sorted tallies are
pairwise distinct, every comparison sort produces the same list, so a simple
insertion sort with the non-strict comparator `!dashboardLess b a` models
it exactly. -/
def insertionSort {α : Type} (le : α → α → Bool) : List α → List α
  | [] => []
  | x :: xs => insertSorted le x (insertionSort le xs)

/-- Model of `grafana.processLogs`: scan the logs, build the per-dashboard tallies and
return them sorted by `(name, namespace)`.  The Go loop iterates its result
map in unspecified order before sorting; the association-list order used
here is one such order, and the sorted output is order-independent because
tally keys are pairwise distinct. -/
def processLogs (logs : List Log) (ignoredUsers : List String) :
    Except String (List DashboardReads) :=
  (processLogsAux ignoredUsers logs []).map fun st =>
    insertionSort (fun a b => !dashboardLess b a)
      (st.map fun entry => ⟨entry.1.name, entry.1.nspace, entry.2.1, entry.2.2.length⟩)

theorem charListLt_asymm :
    ∀ {x y : List Char}, charListLt x y = true → charListLt y x = false := by
  intro x
  induction x with
  | nil =>
    intro y h
    cases y with
    | nil => simp [charListLt] at h
    | cons b bs => simp [charListLt]
  | cons a as ih =>
    intro y h
    cases y with
    | nil => simp [charListLt] at h
    | cons b bs =>
      simp only [charListLt] at h ⊢
      by_cases h1 : a.toNat < b.toNat
      · simp [show ¬b.toNat < a.toNat by omega, h1]
      · by_cases h2 : b.toNat < a.toNat
        · simp [h1, h2] at h
        · simp only [h1, h2, if_false] at h ⊢
          simp [ih h]

theorem charListLt_trans :
    ∀ {x y z : List Char}, charListLt x y = true → charListLt y z = true →
      charListLt x z = true := by
  intro x
  induction x with
  | nil =>
    intro y z h1 h2
    cases y with
    | nil => simp [charListLt] at h1
    | cons b bs =>
      cases z with
      | nil => simp [charListLt] at h2
      | cons c cs => simp [charListLt]
  | cons a as ih =>
    intro y z h1 h2
    cases y with
    | nil => simp [charListLt] at h1
    | cons b bs =>
      cases z with
      | nil => simp [charListLt] at h2
      | cons c cs =>
        simp only [charListLt] at h1 h2 ⊢
        by_cases hab1 : a.toNat < b.toNat
        · by_cases hbc1 : b.toNat < c.toNat
          · simp [show a.toNat < c.toNat by omega]
          · by_cases hbc2 : c.toNat < b.toNat
            · simp [hbc1, hbc2] at h2
            · simp [show a.toNat < c.toNat by omega]
        · by_cases hab2 : b.toNat < a.toNat
          · simp [hab1, hab2] at h1
          · simp only [hab1, hab2, if_false] at h1
            by_cases hbc1 : b.toNat < c.toNat
            · simp [show a.toNat < c.toNat by omega]
            · by_cases hbc2 : c.toNat < b.toNat
              · simp [hbc1, hbc2] at h2
              · simp only [hbc1, hbc2, if_false] at h2
                simp only [show ¬a.toNat < c.toNat by omega,
                  show ¬c.toNat < a.toNat by omega, if_false]
                exact ih h1 h2

theorem charListLt_conn :
    ∀ {x y : List Char}, charListLt x y = false → charListLt y x = false →
      x = y := by
  intro x
  induction x with
  | nil =>
    intro y h1 h2
    cases y with
    | nil => rfl
    | cons b bs => simp [charListLt] at h1
  | cons a as ih =>
    intro y h1 h2
    cases y with
    | nil => simp [charListLt] at h2
    | cons b bs =>
      simp only [charListLt] at h1 h2
      by_cases hab1 : a.toNat < b.toNat
      · simp [hab1] at h1
      · by_cases hab2 : b.toNat < a.toNat
        · simp [hab1, hab2] at h2
        · simp only [hab1, hab2, if_false] at h1 h2
          have htn : a.toNat = b.toNat := by omega
          have hchar : a = b := Char.ext (UInt32.ext htn)
          rw [hchar, ih h1 h2]

theorem strLt_asymm {x y : String} (h : strLt x y = true) : strLt y x = false :=
  charListLt_asymm h

theorem strLt_trans {x y z : String} (h1 : strLt x y = true)
    (h2 : strLt y z = true) : strLt x z = true :=
  charListLt_trans h1 h2

theorem strLt_conn {x y : String} (h1 : strLt x y = false)
    (h2 : strLt y x = false) : x = y :=
  String.ext (charListLt_conn h1 h2)

theorem insertSorted_perm {α : Type} (le : α → α → Bool) (x : α) :
    ∀ l : List α, (insertSorted le x l).Perm (x :: l) := by
  intro l
  induction l with
  | nil => simp [insertSorted]
  | cons y ys ih =>
    simp only [insertSorted]
    by_cases h : le x y
    · simp [h]
    · simp only [h, if_false]
      exact (ih.cons y).trans (List.Perm.swap x y ys)

theorem insertionSort_perm {α : Type} (le : α → α → Bool) :
    ∀ l : List α, (insertionSort le l).Perm l := by
  intro l
  induction l with
  | nil => simp [insertionSort]
  | cons x xs ih =>
    exact (insertSorted_perm le x (insertionSort le xs)).trans (ih.cons x)

theorem insertSorted_pairwise {α : Type} {le : α → α → Bool}
    (htrans : ∀ a b c, le a b = true → le b c = true → le a c = true)
    (htot : ∀ a b, le a b = true ∨ le b a = true) (x : α) :
    ∀ l : List α, l.Pairwise (fun a b => le a b = true) →
      (insertSorted le x l).Pairwise (fun a b => le a b = true) := by
  intro l
  induction l with
  | nil => intro h; simp [insertSorted]
  | cons y ys ih =>
    intro h
    have hpw := List.pairwise_cons.mp h
    simp only [insertSorted]
    by_cases hxy : le x y
    · simp only [hxy, if_true]
      refine List.pairwise_cons.mpr ⟨?_, h⟩
      intro z hz
      rcases List.mem_cons.mp hz with rfl | hz'
      · exact hxy
      · exact htrans x y z hxy (hpw.1 z hz')
    · simp only [hxy, if_false]
      refine List.pairwise_cons.mpr ⟨?_, ih hpw.2⟩
      intro z hz
      have hz' : z ∈ x :: ys := (insertSorted_perm le x ys).mem_iff.mp hz
      rcases List.mem_cons.mp hz' with rfl | hz''
      · rcases htot z y with hc | hc
        · exact absurd hc hxy
        · exact hc
      · exact hpw.1 z hz''

theorem insertionSort_pairwise {α : Type} {le : α → α → Bool}
    (htrans : ∀ a b c, le a b = true → le b c = true → le a c = true)
    (htot : ∀ a b, le a b = true ∨ le b a = true) :
    ∀ l : List α, (insertionSort le l).Pairwise fun a b => le a b = true := by
  intro l
  induction l with
  | nil => simp [insertionSort]
  | cons x xs ih => exact insertSorted_pairwise htrans htot x _ ih

/-- Non-strict transitivity of Go string comparison. -/
theorem strLe_trans {x y z : String} (h1 : strLt y x = false)
    (h2 : strLt z y = false) : strLt z x = false := by
  cases hzx : strLt z x with
  | false => rfl
  | true =>
    exfalso
    cases hyz : strLt y z with
    | true =>
      have hyx := strLt_trans hyz hzx
      rw [h1] at hyx
      exact Bool.noConfusion hyx
    | false =>
      have hzy : z = y := strLt_conn h2 hyz
      rw [hzy, h1] at hzx
      exact Bool.noConfusion hzx

theorem dashboardLess_asymm {a b : DashboardReads}
    (h : dashboardLess a b = true) : dashboardLess b a = false := by
  unfold dashboardLess at h ⊢
  by_cases hn : a.name = b.name
  · rw [if_pos hn] at h
    rw [if_pos hn.symm]
    exact strLt_asymm h
  · rw [if_neg hn] at h
    rw [if_neg fun hh => hn hh.symm]
    exact strLt_asymm h

theorem dashLe_total (a b : DashboardReads) :
    (!dashboardLess b a) = true ∨ (!dashboardLess a b) = true := by
  rw [Bool.not_eq_true', Bool.not_eq_true']
  cases hd : dashboardLess b a with
  | false => exact Or.inl rfl
  | true => exact Or.inr (dashboardLess_asymm hd)

theorem dashLe_trans (a b c : DashboardReads)
    (h1 : (!dashboardLess b a) = true) (h2 : (!dashboardLess c b) = true) :
    (!dashboardLess c a) = true := by
  rw [Bool.not_eq_true'] at h1 h2 ⊢
  unfold dashboardLess at h1 h2 ⊢
  by_cases hBA : b.name = a.name
  · rw [if_pos hBA] at h1
    by_cases hCB : c.name = b.name
    · rw [if_pos hCB] at h2
      rw [if_pos (hCB.trans hBA)]
      exact strLe_trans h1 h2
    · rw [if_neg hCB] at h2
      rw [if_neg fun h => hCB (h.trans hBA.symm), ← hBA]
      exact h2
  · rw [if_neg hBA] at h1
    by_cases hCB : c.name = b.name
    · rw [if_neg fun h => hBA (hCB.symm.trans h), hCB]
      exact h1
    · rw [if_neg hCB] at h2
      by_cases hCA : c.name = a.name
      · exfalso
        rw [hCA] at h2
        exact hBA (strLt_conn h1 h2)
      · rw [if_neg hCA]
        exact strLe_trans h1 h2

/-- The result ordering claimed by the specification: ascending by dashboard
name, ties on the name broken ascending by namespace. -/
theorem claimRel_of_dashLe {a b : DashboardReads}
    (h : (!dashboardLess b a) = true) :
    strLt a.name b.name = true ∨
      (a.name = b.name ∧ (a.nspace = b.nspace ∨ strLt a.nspace b.nspace = true)) := by
  rw [Bool.not_eq_true'] at h
  unfold dashboardLess at h
  by_cases hn : b.name = a.name
  · rw [if_pos hn] at h
    refine Or.inr ⟨hn.symm, ?_⟩
    cases hx : strLt a.nspace b.nspace with
    | true => exact Or.inr rfl
    | false => exact Or.inl (strLt_conn hx h)
  · rw [if_neg hn] at h
    cases hx : strLt a.name b.name with
    | true => exact Or.inl rfl
    | false => exact absurd (strLt_conn hx h) fun hh => hn hh.symm

/-- Well-formedness of the aggregation state: entries have pairwise distinct
keys, and no entry has more distinct readers than reads. -/
def stateWF (st : UsageState) : Prop :=
  (st.map Prod.fst).Nodup ∧ ∀ entry ∈ st, entry.2.2.length ≤ entry.2.1

theorem insertUser_length (u : String) (us : List String) :
    (insertUser u us).length ≤ us.length + 1 := by
  unfold insertUser
  by_cases h : u ∈ us
  · simp [h]
  · simp [h]

theorem keys_countRead (st : UsageState) (key : DashboardKey) (user : String) :
    (countRead st key user).map Prod.fst =
      if key ∈ st.map Prod.fst then st.map Prod.fst
      else st.map Prod.fst ++ [key] := by
  induction st with
  | nil => simp [countRead]
  | cons entry rest ih =>
    obtain ⟨k, c, us⟩ := entry
    simp only [countRead]
    by_cases hk : k = key
    · subst hk
      simp
    · have hk' : ¬key = k := fun h => hk h.symm
      simp only [hk, if_false, List.map_cons, ih]
      by_cases hmem : key ∈ rest.map Prod.fst
      · simp [hmem, hk']
      · simp [hmem, hk']

theorem countRead_wf {st : UsageState} {key : DashboardKey} {user : String}
    (h : stateWF st) : stateWF (countRead st key user) := by
  constructor
  · rw [keys_countRead]
    by_cases hmem : key ∈ st.map Prod.fst
    · simpa [hmem] using h.1
    · simp only [hmem, if_false]
      simp [List.nodup_append, h.1, hmem]
  · intro entry hentry
    induction st with
    | nil =>
      simp only [countRead, List.mem_singleton] at hentry
      subst hentry
      by_cases hu : user = ""
      · rw [if_pos hu]
        simp
      · rw [if_neg hu]
        simp
    | cons e rest ih =>
      obtain ⟨k, c, us⟩ := e
      simp only [countRead] at hentry
      by_cases hk : k = key
      · simp only [hk, if_pos rfl] at hentry
        rcases List.mem_cons.mp hentry with rfl | hmem
        · have hb : us.length ≤ c := h.2 (key, c, us) (by simp [hk])
          by_cases hu : user = ""
          · rw [if_pos hu]
            show us.length ≤ c + 1
            omega
          · rw [if_neg hu]
            show (insertUser user us).length ≤ c + 1
            have := insertUser_length user us
            omega
        · exact h.2 entry (List.mem_cons_of_mem _ hmem)
      · simp only [hk, if_false] at hentry
        rcases List.mem_cons.mp hentry with rfl | hmem
        · exact h.2 (k, c, us) (List.mem_cons_self _ _)
        · have hrest : stateWF rest :=
            ⟨(List.nodup_cons.mp (by simpa using h.1)).2,
             fun x hx => h.2 x (List.mem_cons_of_mem _ hx)⟩
          exact ih hrest hmem

/-- Every state reached by the scanning loop from a well-formed state is
well-formed. -/
theorem processLogsAux_wf (ign : List String) :
    ∀ (logs : List Log) (st st' : UsageState), stateWF st →
      processLogsAux ign logs st = .ok st' → stateWF st' := by
  intro logs
  induction logs with
  | nil =>
    intro st st' hwf h
    simp only [processLogsAux] at h
    cases h
    exact hwf
  | cons log rest ih =>
    intro st st' hwf h
    cases hpath : log.stream.lookup "path" with
    | none => simp [processLogsAux, hpath] at h
    | some path =>
      cases hex : extractPathVariables path with
      | error e => simp [processLogsAux, hpath, hex] at h
      | ok key =>
        simp only [processLogsAux, hpath, hex] at h
        by_cases hig : (log.stream.lookup "uname").getD "" ≠ "" ∧
            (log.stream.lookup "uname").getD "" ∈ ign
        · rw [if_pos hig] at h
          exact ih st st' hwf h
        · rw [if_neg hig] at h
          exact ih _ st' (countRead_wf hwf) h

/-- Inversion of a successful `processLogs` run: the scan succeeded on some
final state and the result is that state's tallies, sorted. -/
theorem processLogs_ok_inv {logs : List Log} {ign : List String}
    {rs : List DashboardReads} (h : processLogs logs ign = .ok rs) :
    ∃ st, processLogsAux ign logs [] = .ok st ∧
      rs = insertionSort (fun a b => !dashboardLess b a)
        (st.map fun entry =>
          ⟨entry.1.name, entry.1.nspace, entry.2.1, entry.2.2.length⟩) := by
  unfold processLogs at h
  cases haux : processLogsAux ign logs [] with
  | error e => rw [haux] at h; exact absurd h (by simp [Except.map])
  | ok st =>
    rw [haux] at h
    simp only [Except.map, Except.ok.injEq] at h
    exact ⟨st, rfl, h.symm⟩

/-- C6.  Every successful `UsedDashboards`/`processLogs` result satisfies
`uniqueUsers ≤ reads` for each record and is sorted ascending by dashboard
name with ties on the name ordered ascending by namespace. -/
theorem C6_theorem (logs : List Log) (ign : List String)
    (rs : List DashboardReads) (h : processLogs logs ign = .ok rs) :
    (∀ r ∈ rs, r.users ≤ r.reads) ∧
    rs.Pairwise (fun a b =>
      strLt a.name b.name = true ∨
        (a.name = b.name ∧
          (a.nspace = b.nspace ∨ strLt a.nspace b.nspace = true))) := by
  obtain ⟨st, haux, hrs⟩ := processLogs_ok_inv h
  have hwf := processLogsAux_wf ign logs [] st ⟨by simp, by simp⟩ haux
  constructor
  · intro r hr
    rw [hrs] at hr
    have hr' := (insertionSort_perm _ _).mem_iff.mp hr
    obtain ⟨entry, hentry, hre⟩ := List.mem_map.mp hr'
    rw [← hre]
    exact hwf.2 entry hentry
  · rw [hrs]
    exact (insertionSort_pairwise dashLe_trans dashLe_total _).imp
      claimRel_of_dashLe

/-- Concrete logs for the C6 witness: two dashboards read once each, listed
out of name order so the sorting is exercised. -/
def c6Logs : List Log :=
  [⟨1, "Request Completed",
    [("path", "/apis/dashboard.grafana.app/v1beta1/namespaces/n/dashboards/d2"),
     ("uname", "alice")]⟩,
   ⟨2, "Request Completed",
    [("path", "/apis/dashboard.grafana.app/v1beta1/namespaces/n/dashboards/d1"),
     ("uname", "bob")]⟩]

def c6Result : List DashboardReads := [⟨"d1", "n", 1, 1⟩, ⟨"d2", "n", 1, 1⟩]

theorem C6_witness :
    (∀ r ∈ c6Result, r.users ≤ r.reads) ∧
    c6Result.Pairwise (fun a b =>
      strLt a.name b.name = true ∨
        (a.name = b.name ∧
          (a.nspace = b.nspace ∨ strLt a.nspace b.nspace = true))) :=
  C6_theorem c6Logs [] c6Result (by decide)

/-- The username a log line carries, as `processLogs` reads it: the `uname`
stream label, or the empty string when the label is missing (a Go map read
of a missing key yields the zero value). -/
def lineUser (l : Log) : String := (l.stream.lookup "uname").getD ""

/-- The dashboard a log line refers to, when its `path` stream label exists
and parses. -/
def lineKey (l : Log) : Option DashboardKey :=
  (l.stream.lookup "path").bind fun p => (extractPathVariables p).toOption

/-- Lookup of a dashboard's tally in a result list. -/
def findReads (rs : List DashboardReads) (k : DashboardKey) :
    Option DashboardReads :=
  rs.find? fun r => decide (r.Key = k)

/-- The read count a result list assigns to a dashboard (0 when absent). -/
def readsOf (rs : List DashboardReads) (k : DashboardKey) : Nat :=
  ((findReads rs k).map DashboardReads.reads).getD 0

/-- The distinct-reader count a result list assigns to a dashboard. -/
def usersOf (rs : List DashboardReads) (k : DashboardKey) : Nat :=
  ((findReads rs k).map DashboardReads.users).getD 0

/-- Lookup of a key's entry in the aggregation state. -/
def stateLookup (st : UsageState) (k : DashboardKey) :
    Option (Nat × List String) :=
  (st.find? fun entry => decide (entry.1 = k)).map fun entry => entry.2

/-- The scanning loop processes an appended log list by processing the first
part and, on success, continuing with the second from the reached state. -/
theorem processLogsAux_append (ign : List String) :
    ∀ (l₁ l₂ : List Log) (st : UsageState),
      processLogsAux ign (l₁ ++ l₂) st =
        match processLogsAux ign l₁ st with
        | .error e => .error e
        | .ok st' => processLogsAux ign l₂ st' := by
  intro l₁
  induction l₁ with
  | nil => intro l₂ st; simp [processLogsAux]
  | cons log rest ih =>
    intro l₂ st
    cases hpath : log.stream.lookup "path" with
    | none => simp [processLogsAux, hpath]
    | some path =>
      cases hex : extractPathVariables path with
      | error e => simp [processLogsAux, hpath, hex]
      | ok key =>
        simp only [List.cons_append, processLogsAux, hpath, hex]
        by_cases hig : (log.stream.lookup "uname").getD "" ≠ "" ∧
            (log.stream.lookup "uname").getD "" ∈ ign
        · rw [if_pos hig, if_pos hig]
          exact ih l₂ st
        · rw [if_neg hig, if_neg hig]
          exact ih l₂ _

/-- A line whose (non-empty) username is ignored is skipped without touching
the state. -/
theorem processLogsAux_cons_ignored {ign : List String} {line : Log}
    {p : String} {k : DashboardKey}
    (hp : line.stream.lookup "path" = some p)
    (hk : extractPathVariables p = .ok k)
    (hu1 : lineUser line ≠ "") (hu2 : lineUser line ∈ ign)
    (rest : List Log) (st : UsageState) :
    processLogsAux ign (line :: rest) st = processLogsAux ign rest st := by
  simp only [processLogsAux, hp, hk]
  rw [if_pos ⟨hu1, hu2⟩]

/-- A line that is not skipped is counted via `countRead`. -/
theorem processLogsAux_cons_counted {ign : List String} {line : Log}
    {p : String} {k : DashboardKey}
    (hp : line.stream.lookup "path" = some p)
    (hk : extractPathVariables p = .ok k)
    (hn : ¬(lineUser line ≠ "" ∧ lineUser line ∈ ign))
    (rest : List Log) (st : UsageState) :
    processLogsAux ign (line :: rest) st =
      processLogsAux ign rest (countRead st k (lineUser line)) := by
  simp only [processLogsAux, hp, hk]
  rw [if_neg (show ¬((line.stream.lookup "uname").getD "" ≠ "" ∧
    (line.stream.lookup "uname").getD "" ∈ ign) from hn)]
  rfl

/-- Every key present in a state reached by the scanning loop was present in
the starting state or was contributed by a counted (non-skipped) line. -/
theorem processLogsAux_keys_origin (ign : List String) :
    ∀ (logs : List Log) (st st' : UsageState),
      processLogsAux ign logs st = .ok st' →
      ∀ k, k ∈ st'.map Prod.fst →
        k ∈ st.map Prod.fst ∨
          ∃ l ∈ logs, ¬(lineUser l ≠ "" ∧ lineUser l ∈ ign) ∧
            lineKey l = some k := by
  intro logs
  induction logs with
  | nil =>
    intro st st' h k hk
    simp only [processLogsAux] at h
    cases h
    exact Or.inl hk
  | cons log rest ih =>
    intro st st' h k hk
    cases hpath : log.stream.lookup "path" with
    | none => simp [processLogsAux, hpath] at h
    | some path =>
      cases hex : extractPathVariables path with
      | error e => simp [processLogsAux, hpath, hex] at h
      | ok key =>
        simp only [processLogsAux, hpath, hex] at h
        by_cases hig : (log.stream.lookup "uname").getD "" ≠ "" ∧
            (log.stream.lookup "uname").getD "" ∈ ign
        · rw [if_pos hig] at h
          rcases ih st st' h k hk with hin | ⟨l, hl, hnin, hlk⟩
          · exact Or.inl hin
          · exact Or.inr ⟨l, List.mem_cons_of_mem _ hl, hnin, hlk⟩
        · rw [if_neg hig] at h
          rcases ih _ st' h k hk with hin | ⟨l, hl, hnin, hlk⟩
          · rw [keys_countRead] at hin
            by_cases hmem : key ∈ st.map Prod.fst
            · rw [if_pos hmem] at hin
              exact Or.inl hin
            · rw [if_neg hmem] at hin
              rcases List.mem_append.mp hin with hin' | hin'
              · exact Or.inl hin'
              · have hkk : k = key := by simpa using hin'
                subst hkk
                refine Or.inr ⟨log, List.mem_cons_self _ _, hig, ?_⟩
                simp [lineKey, hpath, hex, Except.toOption]
          · exact Or.inr ⟨l, List.mem_cons_of_mem _ hl, hnin, hlk⟩

/-- Lemma: `find?` returns the unique element satisfying the predicate. -/
theorem find?_eq_some_of_unique {α : Type} {p : α → Bool} {x : α} :
    ∀ {l : List α}, x ∈ l → p x = true →
      (∀ y ∈ l, p y = true → y = x) → l.find? p = some x := by
  intro l
  induction l with
  | nil => intro hx; simp at hx
  | cons a as ih =>
    intro hx hp huniq
    by_cases ha : p a = true
    · rw [List.find?_cons_of_pos _ ha, huniq a (List.mem_cons_self _ _) ha]
    · rw [List.find?_cons_of_neg _ ha]
      have hx' : x ∈ as := by
        rcases List.mem_cons.mp hx with rfl | h
        · exact absurd hp ha
        · exact h
      exact ih hx' hp fun y hy hpy => huniq y (List.mem_cons_of_mem _ hy) hpy

/-- Tally lookup commutes with sorting and with the projection from the
aggregation state, provided state keys are pairwise distinct. -/
theorem findReads_sorted_eq (st : UsageState)
    (hnd : (st.map Prod.fst).Nodup) (k : DashboardKey) :
    findReads
        (insertionSort (fun a b => !dashboardLess b a)
          (st.map fun entry =>
            ⟨entry.1.name, entry.1.nspace, entry.2.1, entry.2.2.length⟩)) k =
      (stateLookup st k).map fun cu => ⟨k.name, k.nspace, cu.1, cu.2.length⟩ := by
  cases hsl : st.find? fun entry => decide (entry.1 = k) with
  | none =>
    have hnone : ∀ entry ∈ st, ¬entry.1 = k := by
      intro entry hentry
      have := List.find?_eq_none.mp hsl entry hentry
      simpa using this
    rw [stateLookup, hsl]
    simp only [Option.map_none']
    rw [findReads, List.find?_eq_none]
    intro r hr
    have hr' := (insertionSort_perm _ _).mem_iff.mp hr
    obtain ⟨entry, hentry, hre⟩ := List.mem_map.mp hr'
    simp only [decide_eq_true_eq]
    intro hkey
    apply hnone entry hentry
    rw [← hre] at hkey
    exact hkey
  | some entry =>
    have hmem : entry ∈ st := List.mem_of_find?_eq_some hsl
    have hkey : entry.1 = k := by
      have := List.find?_some hsl
      simpa using this
    rw [stateLookup, hsl]
    rw [findReads]
    have hfx : (⟨entry.1.name, entry.1.nspace, entry.2.1, entry.2.2.length⟩ :
        DashboardReads) ∈
        insertionSort (fun a b => !dashboardLess b a)
          (st.map fun entry =>
            ⟨entry.1.name, entry.1.nspace, entry.2.1, entry.2.2.length⟩) :=
      (insertionSort_perm _ _).mem_iff.mpr (List.mem_map_of_mem _ hmem)
    rw [find?_eq_some_of_unique hfx (by simp [DashboardReads.Key, hkey]) ?uniq]
    · simp only [Option.map_some']
      rw [← hkey]
    case uniq =>
      intro y hy hpy
      have hy' := (insertionSort_perm _ _).mem_iff.mp hy
      obtain ⟨e2, he2, hye⟩ := List.mem_map.mp hy'
      have he2k : e2.1 = k := by
        simp only [decide_eq_true_eq] at hpy
        rw [← hye] at hpy
        exact hpy
      have : e2 = entry :=
        List.inj_on_of_nodup_map hnd he2 hmem (he2k.trans hkey.symm)
      rw [← hye, this]

/-- Effect of `countRead` on the counted key's entry: a fresh entry starts at
one read, an existing entry's read count is bumped; the reader set gains the
username exactly when it is non-empty. -/
theorem stateLookup_countRead (st : UsageState) (k : DashboardKey)
    (u : String) :
    stateLookup (countRead st k u) k =
      some (match stateLookup st k with
        | none => (1, if u = "" then [] else [u])
        | some cu => (cu.1 + 1, if u = "" then cu.2 else insertUser u cu.2)) := by
  induction st with
  | nil => simp [countRead, stateLookup, List.find?]
  | cons e rest ih =>
    obtain ⟨k', c, us⟩ := e
    by_cases hk : k' = k
    · subst hk
      simp [countRead, stateLookup, List.find?]
    · simp only [countRead, hk, if_false]
      simp only [stateLookup] at ih ⊢
      rw [List.find?_cons_of_neg _ (by simp [hk]),
        List.find?_cons_of_neg _ (by simp [hk])]
      exact ih

/-- C5 part one: a line with a non-empty, ignored username (and a parsable
path) contributes nothing — deleting it from the log sequence leaves the
whole `processLogs` result unchanged. -/
theorem processLogs_ignored_line (l₁ l₂ : List Log) (ign : List String)
    (line : Log) (p : String) (k : DashboardKey)
    (hp : line.stream.lookup "path" = some p)
    (hk : extractPathVariables p = .ok k)
    (hu1 : lineUser line ≠ "") (hu2 : lineUser line ∈ ign) :
    processLogs (l₁ ++ line :: l₂) ign = processLogs (l₁ ++ l₂) ign := by
  unfold processLogs
  rw [processLogsAux_append, processLogsAux_append]
  cases processLogsAux ign l₁ [] with
  | error e => rfl
  | ok st =>
    show Except.map _ (processLogsAux ign (line :: l₂) st) =
      Except.map _ (processLogsAux ign l₂ st)
    rw [processLogsAux_cons_ignored hp hk hu1 hu2]

/-- C5 part two: a dashboard all of whose log lines carry ignored usernames
is entirely absent from the result. -/
theorem processLogs_all_ignored_absent (logs : List Log) (ign : List String)
    (k : DashboardKey) (rs : List DashboardReads)
    (h : processLogs logs ign = .ok rs)
    (hall : ∀ l ∈ logs, lineKey l = some k →
      lineUser l ≠ "" ∧ lineUser l ∈ ign) :
    findReads rs k = none := by
  obtain ⟨st, haux, hrs⟩ := processLogs_ok_inv h
  rw [hrs, findReads, List.find?_eq_none]
  intro r hr
  have hr' := (insertionSort_perm _ _).mem_iff.mp hr
  obtain ⟨entry, hentry, hre⟩ := List.mem_map.mp hr'
  simp only [decide_eq_true_eq]
  intro hkey
  have hk_in : k ∈ st.map Prod.fst := by
    rw [← hkey, ← hre]
    exact List.mem_map_of_mem Prod.fst hentry
  rcases processLogsAux_keys_origin ign logs [] st haux k hk_in with
    hin | ⟨l, hl, hnig, hlk⟩
  · simp at hin
  · exact hnig (hall l hl hlk)

/-- C5 part three: appending a line with an empty (or missing) username and a
parsable path bumps its dashboard's read count by one and leaves its
distinct-reader count unchanged. -/
theorem processLogs_anonymous_line (logs : List Log) (ign : List String)
    (line : Log) (p : String) (k : DashboardKey) (rs : List DashboardReads)
    (hp : line.stream.lookup "path" = some p)
    (hk : extractPathVariables p = .ok k)
    (hu : lineUser line = "") (h : processLogs logs ign = .ok rs) :
    ∃ rs', processLogs (logs ++ [line]) ign = .ok rs' ∧
      readsOf rs' k = readsOf rs k + 1 ∧ usersOf rs' k = usersOf rs k := by
  obtain ⟨st, haux, hrs⟩ := processLogs_ok_inv h
  have hwf : stateWF st := processLogsAux_wf ign logs [] st ⟨by simp, by simp⟩ haux
  have hnig : ¬(lineUser line ≠ "" ∧ lineUser line ∈ ign) := by simp [hu]
  have hstep : processLogsAux ign (logs ++ [line]) [] =
      .ok (countRead st k "") := by
    rw [processLogsAux_append, haux]
    show processLogsAux ign [line] st = .ok (countRead st k "")
    rw [processLogsAux_cons_counted hp hk hnig [] st, hu]
    simp [processLogsAux]
  refine ⟨insertionSort (fun a b => !dashboardLess b a)
      ((countRead st k "").map fun entry =>
        ⟨entry.1.name, entry.1.nspace, entry.2.1, entry.2.2.length⟩),
    ?_, ?_, ?_⟩
  · unfold processLogs
    rw [hstep]
    rfl
  · rw [readsOf, readsOf, hrs, findReads_sorted_eq st hwf.1 k,
      findReads_sorted_eq _ (countRead_wf hwf).1 k, stateLookup_countRead]
    cases hsl : stateLookup st k with
    | none => simp
    | some cu => simp
  · rw [usersOf, usersOf, hrs, findReads_sorted_eq st hwf.1 k,
      findReads_sorted_eq _ (countRead_wf hwf).1 k, stateLookup_countRead]
    cases hsl : stateLookup st k with
    | none => simp
    | some cu => simp

/-- C5.  (1) A log line whose username is non-empty and ignored contributes
to neither reads nor uniqueUsers of any dashboard (removing it changes
nothing); (2) a dashboard all of whose log lines carry ignored usernames is
entirely absent from the result; (3) a line with an empty or missing
username still counts as one read of its dashboard but never contributes to
uniqueUsers. -/
theorem C5_theorem :
    (∀ (l₁ l₂ : List Log) (ign : List String) (line : Log) (p : String)
        (k : DashboardKey),
      line.stream.lookup "path" = some p →
      extractPathVariables p = .ok k →
      lineUser line ≠ "" → lineUser line ∈ ign →
      processLogs (l₁ ++ line :: l₂) ign = processLogs (l₁ ++ l₂) ign) ∧
    (∀ (logs : List Log) (ign : List String) (k : DashboardKey)
        (rs : List DashboardReads),
      processLogs logs ign = .ok rs →
      (∀ l ∈ logs, lineKey l = some k →
        lineUser l ≠ "" ∧ lineUser l ∈ ign) →
      findReads rs k = none) ∧
    (∀ (logs : List Log) (ign : List String) (line : Log) (p : String)
        (k : DashboardKey) (rs : List DashboardReads),
      line.stream.lookup "path" = some p →
      extractPathVariables p = .ok k →
      lineUser line = "" → processLogs logs ign = .ok rs →
      ∃ rs', processLogs (logs ++ [line]) ign = .ok rs' ∧
        readsOf rs' k = readsOf rs k + 1 ∧ usersOf rs' k = usersOf rs k) :=
  ⟨processLogs_ignored_line, processLogs_all_ignored_absent,
    processLogs_anonymous_line⟩

/-- Concrete lines for the C5 witness. -/
def c5Path : String :=
  "/apis/dashboard.grafana.app/v1beta1/namespaces/n/dashboards/d"

def c5Key : DashboardKey := ⟨"d", "n"⟩

def c5IgnLine : Log :=
  ⟨1, "Request Completed", [("path", c5Path), ("uname", "sys")]⟩

def c5AliceLine : Log :=
  ⟨2, "Request Completed", [("path", c5Path), ("uname", "alice")]⟩

def c5AnonLine : Log := ⟨3, "Request Completed", [("path", c5Path)]⟩

theorem C5_witness :
    (processLogs ([] ++ c5IgnLine :: [c5AliceLine]) ["sys"] =
      processLogs ([] ++ [c5AliceLine]) ["sys"]) ∧
    findReads [] c5Key = none ∧
    (∃ rs', processLogs ([c5AliceLine] ++ [c5AnonLine]) ["sys"] = .ok rs' ∧
      readsOf rs' c5Key = readsOf [⟨"d", "n", 1, 1⟩] c5Key + 1 ∧
      usersOf rs' c5Key = usersOf [⟨"d", "n", 1, 1⟩] c5Key) :=
  ⟨C5_theorem.1 [] [c5AliceLine] ["sys"] c5IgnLine c5Path c5Key (by decide)
      (by decide) (by decide) (by decide),
    C5_theorem.2.1 [c5IgnLine] ["sys"] c5Key [] (by decide) (by decide),
    C5_theorem.2.2 [c5AliceLine] ["sys"] c5AnonLine c5Path c5Key
      [⟨"d", "n", 1, 1⟩] (by decide) (by decide) (by decide) (by decide)⟩

/-- Options of `grafana.Client.UsedDashboards`.  `ChunkSize` is a
`time.Duration` in nanoseconds and `LowerThreshold` a Go `int`; both are
modelled as `Int` so that the validation of negative values is faithful. -/
structure UsedDashboardsOptions where
  IgnoredUsers : List String
  ChunkSize : Int
  LowerThreshold : Int

/-- Four hours in nanoseconds, the `ChunkSize` default. -/
def fourHours : Int := 14400000000000

/-- The chunk size actually used: the four-hour default replaces a zero. -/
def effectiveChunkSize (opts : UsedDashboardsOptions) : Int :=
  if opts.ChunkSize = 0 then fourHours else opts.ChunkSize

/-- The lower threshold actually used: the default 10 replaces a zero. -/
def effectiveLowerThreshold (opts : UsedDashboardsOptions) : Int :=
  if opts.LowerThreshold = 0 then 10 else opts.LowerThreshold

/-- Model of `grafana.Client.UsedDashboards`: validate the arguments, apply option
defaults, read the logs of `[now - r, now)` in chunks, abort when fewer
logs than the lower threshold were found, and otherwise aggregate them.
`now` stands for the `time.Now()` sample; the label selector only
contributes to the LogQL query string, and the log store `store` stands for
the set of lines that query matches.  The Go code binds the fetched log
slice once; it is written out twice here (condition and branch) with the
same value. -/
def UsedDashboards (store : List Log) (limit : Nat)
    (labels : List (String × String)) (now r : Nat)
    (opts : UsedDashboardsOptions) : Except String (List DashboardReads) :=
  if labels.isEmpty then .error "labels must not be empty"
  else if opts.ChunkSize < 0 then
    .error "invalid options: chunk size must be zero or greater"
  else if opts.LowerThreshold < 0 then
    .error "invalid options: lower threshold must be zero or greater"
  else if ((queryLogs store limit (effectiveChunkSize opts).toNat
      (now - r) now).length : Int) < effectiveLowerThreshold opts then
    .error "found fewer logs than the lower threshold"
  else
    processLogs
      (queryLogs store limit (effectiveChunkSize opts).toNat (now - r) now)
      opts.IgnoredUsers

/-- The specification's reference for the chunking-equivalence claim: the
same call, with the chunked read replaced by one unchunked `QueryRange`
over the whole range. -/
def UsedDashboardsUnchunked (store : List Log) (limit : Nat)
    (labels : List (String × String)) (now r : Nat)
    (opts : UsedDashboardsOptions) : Except String (List DashboardReads) :=
  if labels.isEmpty then .error "labels must not be empty"
  else if opts.ChunkSize < 0 then
    .error "invalid options: chunk size must be zero or greater"
  else if opts.LowerThreshold < 0 then
    .error "invalid options: lower threshold must be zero or greater"
  else if (((QueryRange store limit (now - r) now).1.length : Int) <
      effectiveLowerThreshold opts) then
    .error "found fewer logs than the lower threshold"
  else
    processLogs (QueryRange store limit (now - r) now).1 opts.IgnoredUsers

/-- A Grafana dashboard as decoded by `grafana.Client.dashboardsPage`
(`namespace` is spelled `Nspace`; the raw spec payload is kept as an opaque
string). -/
structure Dashboard where
  Name : String
  Nspace : String
  UID : String
  Title : String
  Tags : List String
  Spec : String
  ManagedBy : Option String
deriving DecidableEq

def Dashboard.Key (d : Dashboard) : DashboardKey := ⟨d.Name, d.Nspace⟩

/-- Model of `Dashboard.Provisioned`: a dashboard is provisioned when it carries the
managed-by annotation. -/
def Dashboard.Provisioned (d : Dashboard) : Bool := d.ManagedBy.isSome

/-- Model of `Dashboard.HasTag`. -/
def Dashboard.HasTag (d : Dashboard) (tag : String) : Bool :=
  d.Tags.contains tag

/-- The observable remote side effects of a prune run: the backup call and
the dashboard delete call, each identified by namespace and name. -/
inductive PruneAction where
  | backup (nspace name : String)
  | delete (nspace name : String)
deriving DecidableEq

/-- Outcomes of the remote backup and delete calls, by dashboard. -/
structure PruneEnv where
  backupOk : String → String → Bool
  deleteOk : String → String → Bool

/-- Model of `grafana.Client.DeleteDashboard`: reject an empty name, back the
dashboard up, and only on backup success issue the delete call.  The result
is paired with the trace of remote calls made. -/
def DeleteDashboard (env : PruneEnv) (nspace name : String)
    (dashboardJSON : String) : Except String Unit × List PruneAction :=
  if name = "" then (.error "dashboard name must not be empty", [])
  else if env.backupOk nspace name then
    if env.deleteOk nspace name then
      (.ok (), [.backup nspace name, .delete nspace name])
    else
      (.error "delete failed", [.backup nspace name, .delete nspace name])
  else (.error "backing up dashboard", [.backup nspace name])

/-- Model of `DashboardPruner.hasSkipTag`: true when the dashboard carries any
configured skip tag. -/
def hasSkipTag (skipTags : List String) (d : Dashboard) : Bool :=
  if skipTags.isEmpty then false else skipTags.any fun tag => d.HasTag tag

/-- Membership of a dashboard in the usage index built by
`DashboardPruner.usedMap`. -/
def isUsed (used : List DashboardReads) (d : Dashboard) : Bool :=
  used.any fun u => decide (u.Key = d.Key)

/-- The per-dashboard loop of `DashboardPruner.prune`: used, provisioned and
skip-tagged dashboards are skipped, dry-run mode only logs, and every other
dashboard is deleted via `DeleteDashboard`; the first failure aborts the
whole run. -/
def pruneDashboards (env : PruneEnv) (dry : Bool) (skipTags : List String)
    (used : List DashboardReads) :
    List Dashboard → Except String Unit × List PruneAction
  | [] => (.ok (), [])
  | d :: rest =>
    if isUsed used d then pruneDashboards env dry skipTags used rest
    else if d.Provisioned then pruneDashboards env dry skipTags used rest
    else if hasSkipTag skipTags d then pruneDashboards env dry skipTags used rest
    else if dry then pruneDashboards env dry skipTags used rest
    else
      match DeleteDashboard env d.Nspace d.Name d.Spec with
      | (.error e, tr) => (.error ("deleting unused dashboard: " ++ e), tr)
      | (.ok _, tr) =>
        (((pruneDashboards env dry skipTags used rest)).1,
          tr ++ (pruneDashboards env dry skipTags used rest).2)

/-- Model of `DashboardPruner.prune`: fetch all dashboards, fetch the usage records,
and walk the dashboard list.  The two fetch results are injected, mirroring
the `grafanaClient` interface the pruner is built on. -/
def prune (env : PruneEnv) (dry : Bool) (skipTags : List String)
    (all : Except String (List Dashboard))
    (used : Except String (List DashboardReads)) :
    Except String Unit × List PruneAction :=
  match all with
  | .error e => (.error ("fetching all Grafana dashboards: " ++ e), [])
  | .ok dashboards =>
    match used with
    | .error e => (.error ("fetching used Grafana dashboards: " ++ e), [])
    | .ok usedList => pruneDashboards env dry skipTags usedList dashboards

/-- Store for the C3 counterexample: one entry at t = 1 and thirteen entries
sharing t = 5, all reads of the same dashboard by the same user. -/
def c3Line (t : Nat) : Log :=
  ⟨t, "Request Completed",
    [("path", "/apis/dashboard.grafana.app/v1beta1/namespaces/n/dashboards/d"),
     ("uname", "u")]⟩

def c3Store : List Log := c3Line 1 :: List.replicate 13 (c3Line 5)

def c3Opts : UsedDashboardsOptions := ⟨[], 3, 10⟩

/-- C3 counterexample.  With page limit 12 over the range `[0, 10)` and
chunk size 3, the chunked call returns 13 reads of the dashboard while the
unchunked call returns 12: the duplicate-timestamp pagination loss depends
on where the windows cut, so chunking changes the tally. -/
theorem C3_counterexample :
    UsedDashboards c3Store 12 [("app", "grafana")] 10 10 c3Opts =
      .ok [⟨"d", "n", 13, 1⟩] ∧
    UsedDashboardsUnchunked c3Store 12 [("app", "grafana")] 10 10 c3Opts =
      .ok [⟨"d", "n", 12, 1⟩] ∧
    UsedDashboards c3Store 12 [("app", "grafana")] 10 10 c3Opts ≠
      UsedDashboardsUnchunked c3Store 12 [("app", "grafana")] 10 10 c3Opts := by
  refine ⟨by decide, by decide, by decide⟩

/-- C3, amended.  Whenever no two store entries share a nanosecond timestamp
(and the page limit is positive), `UsedDashboards` with any chunk size —
including the four-hour default — returns exactly what a single unchunked
query over the whole range returns: identical per-dashboard tallies,
identical errors. -/
theorem C3_theorem (store : List Log) (limit : Nat)
    (labels : List (String × String)) (now r : Nat)
    (opts : UsedDashboardsOptions)
    (hs : store.Pairwise fun a b => a.ts < b.ts) (hl : 0 < limit) :
    UsedDashboards store limit labels now r opts =
      UsedDashboardsUnchunked store limit labels now r opts := by
  unfold UsedDashboards UsedDashboardsUnchunked
  by_cases h1 : labels.isEmpty
  · simp [h1]
  by_cases h2 : opts.ChunkSize < 0
  · simp [h1, h2]
  by_cases h3 : opts.LowerThreshold < 0
  · simp [h1, h2, h3]
  have hchunk : 0 < (effectiveChunkSize opts).toNat := by
    unfold effectiveChunkSize
    by_cases hz : opts.ChunkSize = 0
    · rw [if_pos hz]
      decide
    · rw [if_neg hz]
      omega
  rw [queryLogs_eq_unchunked store limit (effectiveChunkSize opts).toNat
    (now - r) now hs hl hchunk]

/-- Witness store for the amended C3: two entries at distinct timestamps. -/
def c3WitnessStore : List Log := [c3Line 1, c3Line 2]

theorem C3_witness :
    UsedDashboards c3WitnessStore 1 [("app", "grafana")] 10 10 ⟨[], 1, 1⟩ =
      UsedDashboardsUnchunked c3WitnessStore 1 [("app", "grafana")] 10 10
        ⟨[], 1, 1⟩ :=
  C3_theorem c3WitnessStore 1 [("app", "grafana")] 10 10 ⟨[], 1, 1⟩
    (by decide) (by decide)

/-- C4.  When fewer logs than the effective lower threshold are found, the
`UsedDashboards` call fails with the below-threshold error and returns no
usage records, and any prune run consuming that result aborts with the
wrapped error having made no backup and no delete call. -/
theorem C4_theorem (store : List Log) (limit : Nat)
    (labels : List (String × String)) (now r : Nat)
    (opts : UsedDashboardsOptions)
    (h1 : ¬labels.isEmpty) (h2 : ¬opts.ChunkSize < 0)
    (h3 : ¬opts.LowerThreshold < 0)
    (hbelow : ((queryLogs store limit (effectiveChunkSize opts).toNat
      (now - r) now).length : Int) < effectiveLowerThreshold opts) :
    UsedDashboards store limit labels now r opts =
      .error "found fewer logs than the lower threshold" ∧
    ∀ (env : PruneEnv) (dry : Bool) (skipTags : List String)
        (ds : List Dashboard),
      prune env dry skipTags (.ok ds)
          (UsedDashboards store limit labels now r opts) =
        (.error ("fetching used Grafana dashboards: " ++
          "found fewer logs than the lower threshold"), []) := by
  have herr : UsedDashboards store limit labels now r opts =
      .error "found fewer logs than the lower threshold" := by
    unfold UsedDashboards
    rw [if_neg h1, if_neg h2, if_neg h3, if_pos hbelow]
  refine ⟨herr, ?_⟩
  intro env dry skipTags ds
  rw [herr]
  rfl

/-- Concrete inputs for the C4 witness: an empty log store, defaulted
options (threshold 10) and one unused dashboard. -/
def c4Dashboard : Dashboard := ⟨"d", "n", "u1", "D", [], "{}", none⟩

theorem C4_witness :
    UsedDashboards [] 5 [("app", "grafana")] 10 10 ⟨[], 0, 0⟩ =
      .error "found fewer logs than the lower threshold" ∧
    prune ⟨fun _ _ => true, fun _ _ => true⟩ false []
        (.ok [c4Dashboard])
        (UsedDashboards [] 5 [("app", "grafana")] 10 10 ⟨[], 0, 0⟩) =
      (.error ("fetching used Grafana dashboards: " ++
        "found fewer logs than the lower threshold"), []) := by
  have h := C4_theorem [] 5 [("app", "grafana")] 10 10 ⟨[], 0, 0⟩
    (by decide) (by decide) (by decide) (by decide)
  exact ⟨h.1, h.2 ⟨fun _ _ => true, fun _ _ => true⟩ false [] [c4Dashboard]⟩

/-- C10.  Passing `LowerThreshold = 0` does not disable the safety valve:
the call behaves exactly as with the default threshold 10 (so it fails
whenever fewer than 10 logs are found), and only negative values are
rejected as invalid. -/
theorem C10_theorem :
    (∀ (store : List Log) (limit : Nat) (labels : List (String × String))
        (now r : Nat) (opts : UsedDashboardsOptions),
      opts.LowerThreshold = 0 →
      UsedDashboards store limit labels now r opts =
        UsedDashboards store limit labels now r
          ⟨opts.IgnoredUsers, opts.ChunkSize, 10⟩) ∧
    (∀ (store : List Log) (limit : Nat) (labels : List (String × String))
        (now r : Nat) (opts : UsedDashboardsOptions),
      ¬labels.isEmpty → ¬opts.ChunkSize < 0 → opts.LowerThreshold = 0 →
      ((queryLogs store limit (effectiveChunkSize opts).toNat
        (now - r) now).length : Int) < 10 →
      UsedDashboards store limit labels now r opts =
        .error "found fewer logs than the lower threshold") ∧
    (∀ (store : List Log) (limit : Nat) (labels : List (String × String))
        (now r : Nat) (opts : UsedDashboardsOptions),
      ¬labels.isEmpty → ¬opts.ChunkSize < 0 → opts.LowerThreshold < 0 →
      UsedDashboards store limit labels now r opts =
        .error "invalid options: lower threshold must be zero or greater") := by
  refine ⟨?_, ?_, ?_⟩
  · intro store limit labels now r opts hz
    obtain ⟨ig, cs, lt⟩ := opts
    simp only at hz
    subst hz
    simp [UsedDashboards, effectiveLowerThreshold, effectiveChunkSize]
  · intro store limit labels now r opts hl1 hl2 hz hbelow
    have hthresh : effectiveLowerThreshold opts = 10 := by
      unfold effectiveLowerThreshold
      rw [if_pos hz]
    unfold UsedDashboards
    rw [if_neg hl1, if_neg hl2, if_neg (by omega), hthresh, if_pos hbelow]
  · intro store limit labels now r opts hl1 hl2 hneg
    unfold UsedDashboards
    rw [if_neg hl1, if_neg hl2, if_pos hneg]

theorem C10_witness :
    UsedDashboards [] 5 [("app", "grafana")] 10 10 ⟨[], 0, 0⟩ =
      UsedDashboards [] 5 [("app", "grafana")] 10 10 ⟨[], 0, 10⟩ ∧
    UsedDashboards [] 5 [("app", "grafana")] 10 10 ⟨[], 0, 0⟩ =
      .error "found fewer logs than the lower threshold" ∧
    UsedDashboards [] 5 [("app", "grafana")] 10 10 ⟨[], 0, -1⟩ =
      .error "invalid options: lower threshold must be zero or greater" :=
  ⟨C10_theorem.1 [] 5 [("app", "grafana")] 10 10 ⟨[], 0, 0⟩ (by decide),
   C10_theorem.2.1 [] 5 [("app", "grafana")] 10 10 ⟨[], 0, 0⟩ (by decide)
     (by decide) (by decide) (by decide),
   C10_theorem.2.2 [] 5 [("app", "grafana")] 10 10 ⟨[], 0, -1⟩ (by decide)
     (by decide) (by decide)⟩

/-- In dry-run mode the per-dashboard loop finishes successfully having made
no remote call at all: every deletion candidate reaches the dry-run check
and is only logged. -/
theorem pruneDashboards_dry (env : PruneEnv) (skipTags : List String)
    (used : List DashboardReads) :
    ∀ ds : List Dashboard,
      pruneDashboards env true skipTags used ds = (.ok (), []) := by
  intro ds
  induction ds with
  | nil => rfl
  | cons d rest ih =>
    simp only [pruneDashboards]
    by_cases h1 : isUsed used d = true
    · rw [if_pos h1]
      exact ih
    · rw [if_neg h1]
      by_cases h2 : d.Provisioned = true
      · rw [if_pos h2]
        exact ih
      · rw [if_neg h2]
        by_cases h3 : hasSkipTag skipTags d = true
        · rw [if_pos h3]
          exact ih
        · rw [if_neg h3, if_pos trivial]
          exact ih

/-- C9.  A dry-run prune performs no backup call and no delete call on any
execution path — the action trace of the run is empty, whether the run
succeeds or aborts with an error. -/
theorem C9_theorem (env : PruneEnv) (skipTags : List String)
    (all : Except String (List Dashboard))
    (used : Except String (List DashboardReads)) :
    (prune env true skipTags all used).2 = [] := by
  cases all with
  | error e => rfl
  | ok ds =>
    cases used with
    | error e => rfl
    | ok ul =>
      show (pruneDashboards env true skipTags ul ds).2 = []
      rw [pruneDashboards_dry]

theorem pruneDashboards_cons_skip {env : PruneEnv} {dry : Bool}
    {skipTags : List String} {used : List DashboardReads} {d : Dashboard}
    (rest : List Dashboard)
    (h : isUsed used d = true ∨ d.Provisioned = true ∨
      hasSkipTag skipTags d = true ∨ dry = true) :
    pruneDashboards env dry skipTags used (d :: rest) =
      pruneDashboards env dry skipTags used rest := by
  rcases h with h | h | h | h <;> simp [pruneDashboards, h]

theorem pruneDashboards_cons_nameEmpty {env : PruneEnv} {dry : Bool}
    {skipTags : List String} {used : List DashboardReads} {d : Dashboard}
    (rest : List Dashboard)
    (h1 : ¬isUsed used d = true) (h2 : ¬d.Provisioned = true)
    (h3 : ¬hasSkipTag skipTags d = true) (h4 : ¬dry = true)
    (hname : d.Name = "") :
    pruneDashboards env dry skipTags used (d :: rest) =
      (.error ("deleting unused dashboard: " ++
        "dashboard name must not be empty"), []) := by
  simp [pruneDashboards, DeleteDashboard, h1, h2, h3, h4, hname]

theorem pruneDashboards_cons_backupFail {env : PruneEnv} {dry : Bool}
    {skipTags : List String} {used : List DashboardReads} {d : Dashboard}
    (rest : List Dashboard)
    (h1 : ¬isUsed used d = true) (h2 : ¬d.Provisioned = true)
    (h3 : ¬hasSkipTag skipTags d = true) (h4 : ¬dry = true)
    (hname : ¬d.Name = "") (hb : env.backupOk d.Nspace d.Name = false) :
    pruneDashboards env dry skipTags used (d :: rest) =
      (.error ("deleting unused dashboard: " ++ "backing up dashboard"),
        [.backup d.Nspace d.Name]) := by
  simp [pruneDashboards, DeleteDashboard, h1, h2, h3, h4, hname, hb]

theorem pruneDashboards_cons_deleteFail {env : PruneEnv} {dry : Bool}
    {skipTags : List String} {used : List DashboardReads} {d : Dashboard}
    (rest : List Dashboard)
    (h1 : ¬isUsed used d = true) (h2 : ¬d.Provisioned = true)
    (h3 : ¬hasSkipTag skipTags d = true) (h4 : ¬dry = true)
    (hname : ¬d.Name = "") (hb : env.backupOk d.Nspace d.Name = true)
    (hd : env.deleteOk d.Nspace d.Name = false) :
    pruneDashboards env dry skipTags used (d :: rest) =
      (.error ("deleting unused dashboard: " ++ "delete failed"),
        [.backup d.Nspace d.Name, .delete d.Nspace d.Name]) := by
  simp [pruneDashboards, DeleteDashboard, h1, h2, h3, h4, hname, hb, hd]

theorem pruneDashboards_cons_ok {env : PruneEnv} {dry : Bool}
    {skipTags : List String} {used : List DashboardReads} {d : Dashboard}
    (rest : List Dashboard)
    (h1 : ¬isUsed used d = true) (h2 : ¬d.Provisioned = true)
    (h3 : ¬hasSkipTag skipTags d = true) (h4 : ¬dry = true)
    (hname : ¬d.Name = "") (hb : env.backupOk d.Nspace d.Name = true)
    (hd : env.deleteOk d.Nspace d.Name = true) :
    pruneDashboards env dry skipTags used (d :: rest) =
      ((pruneDashboards env dry skipTags used rest).1,
        .backup d.Nspace d.Name :: .delete d.Nspace d.Name ::
          (pruneDashboards env dry skipTags used rest).2) := by
  simp [pruneDashboards, DeleteDashboard, h1, h2, h3, h4, hname, hb, hd]

/-- Every delete call in a prune trace is preceded (strictly earlier in the
trace) by the backup call for the same dashboard. -/
theorem pruneDashboards_delete_after_backup (env : PruneEnv) (dry : Bool)
    (skipTags : List String) (used : List DashboardReads) :
    ∀ (ds : List Dashboard) (ns n : String),
      PruneAction.delete ns n ∈ (pruneDashboards env dry skipTags used ds).2 →
      ∃ t₁ t₂, (pruneDashboards env dry skipTags used ds).2 =
        t₁ ++ PruneAction.backup ns n :: t₂ ∧
        PruneAction.delete ns n ∈ t₂ := by
  intro ds
  induction ds with
  | nil => intro ns n h; simp [pruneDashboards] at h
  | cons d rest ih =>
    intro ns n h
    by_cases h1 : isUsed used d = true
    · rw [pruneDashboards_cons_skip rest (Or.inl h1)] at h ⊢
      exact ih ns n h
    by_cases h2 : d.Provisioned = true
    · rw [pruneDashboards_cons_skip rest (Or.inr (Or.inl h2))] at h ⊢
      exact ih ns n h
    by_cases h3 : hasSkipTag skipTags d = true
    · rw [pruneDashboards_cons_skip rest (Or.inr (Or.inr (Or.inl h3)))] at h ⊢
      exact ih ns n h
    by_cases h4 : dry = true
    · rw [pruneDashboards_cons_skip rest (Or.inr (Or.inr (Or.inr h4)))] at h ⊢
      exact ih ns n h
    by_cases hname : d.Name = ""
    · rw [pruneDashboards_cons_nameEmpty rest h1 h2 h3 h4 hname] at h
      simp at h
    by_cases hb : env.backupOk d.Nspace d.Name = true
    · by_cases hd : env.deleteOk d.Nspace d.Name = true
      · rw [pruneDashboards_cons_ok rest h1 h2 h3 h4 hname hb hd] at h ⊢
        simp only [List.mem_cons] at h
        rcases h with h | h | h
        · exact absurd h (by simp)
        · simp only [PruneAction.delete.injEq] at h
          obtain ⟨hns, hn⟩ := h
          subst hns
          subst hn
          exact ⟨[], PruneAction.delete d.Nspace d.Name ::
            (pruneDashboards env dry skipTags used rest).2, rfl, by simp⟩
        · obtain ⟨t₁, t₂, heq, hmem⟩ := ih ns n h
          refine ⟨PruneAction.backup d.Nspace d.Name ::
            PruneAction.delete d.Nspace d.Name :: t₁, t₂, ?_, hmem⟩
          simp [heq]
      · have hd' : env.deleteOk d.Nspace d.Name = false := by
          revert hd; cases env.deleteOk d.Nspace d.Name <;> simp
        rw [pruneDashboards_cons_deleteFail rest h1 h2 h3 h4 hname hb hd'] at h ⊢
        simp only [List.mem_cons, List.not_mem_nil, or_false] at h
        rcases h with h | h
        · exact absurd h (by simp)
        · simp only [PruneAction.delete.injEq] at h
          obtain ⟨hns, hn⟩ := h
          subst hns
          subst hn
          exact ⟨[], [PruneAction.delete d.Nspace d.Name], rfl, by simp⟩
    · have hb' : env.backupOk d.Nspace d.Name = false := by
        revert hb; cases env.backupOk d.Nspace d.Name <;> simp
      rw [pruneDashboards_cons_backupFail rest h1 h2 h3 h4 hname hb'] at h
      simp at h

/-- If a backup call in a prune trace failed, the run aborted there: the
result is an error, no delete for that dashboard ever appears, and the
failed backup is the last action of the trace. -/
theorem pruneDashboards_backup_fail (env : PruneEnv) (dry : Bool)
    (skipTags : List String) (used : List DashboardReads) :
    ∀ (ds : List Dashboard) (ns n : String),
      PruneAction.backup ns n ∈ (pruneDashboards env dry skipTags used ds).2 →
      env.backupOk ns n = false →
      (∃ e, (pruneDashboards env dry skipTags used ds).1 = .error e) ∧
      PruneAction.delete ns n ∉ (pruneDashboards env dry skipTags used ds).2 ∧
      (pruneDashboards env dry skipTags used ds).2.getLast? =
        some (PruneAction.backup ns n) := by
  intro ds
  induction ds with
  | nil => intro ns n h; simp [pruneDashboards] at h
  | cons d rest ih =>
    intro ns n h hfail
    by_cases h1 : isUsed used d = true
    · rw [pruneDashboards_cons_skip rest (Or.inl h1)] at h ⊢
      exact ih ns n h hfail
    by_cases h2 : d.Provisioned = true
    · rw [pruneDashboards_cons_skip rest (Or.inr (Or.inl h2))] at h ⊢
      exact ih ns n h hfail
    by_cases h3 : hasSkipTag skipTags d = true
    · rw [pruneDashboards_cons_skip rest (Or.inr (Or.inr (Or.inl h3)))] at h ⊢
      exact ih ns n h hfail
    by_cases h4 : dry = true
    · rw [pruneDashboards_cons_skip rest (Or.inr (Or.inr (Or.inr h4)))] at h ⊢
      exact ih ns n h hfail
    by_cases hname : d.Name = ""
    · rw [pruneDashboards_cons_nameEmpty rest h1 h2 h3 h4 hname] at h
      simp at h
    by_cases hb : env.backupOk d.Nspace d.Name = true
    · by_cases hd : env.deleteOk d.Nspace d.Name = true
      · rw [pruneDashboards_cons_ok rest h1 h2 h3 h4 hname hb hd] at h ⊢
        simp only [List.mem_cons] at h
        rcases h with h | h | h
        · simp only [PruneAction.backup.injEq] at h
          obtain ⟨hns, hn⟩ := h
          subst hns
          subst hn
          rw [hb] at hfail
          exact Bool.noConfusion hfail
        · exact absurd h (by simp)
        · obtain ⟨⟨e, herr⟩, hnotin, hlast⟩ := ih ns n h hfail
          refine ⟨⟨e, herr⟩, ?_, ?_⟩
          · intro hmem
            simp only [List.mem_cons] at hmem
            rcases hmem with hm | hm | hm
            · exact absurd hm (by simp)
            · simp only [PruneAction.delete.injEq] at hm
              obtain ⟨hns, hn⟩ := hm
              subst hns
              subst hn
              rw [hb] at hfail
              exact Bool.noConfusion hfail
            · exact hnotin hm
          · have hne : (pruneDashboards env dry skipTags used rest).2 ≠ [] := by
              intro hnil
              rw [hnil] at hlast
              simp at hlast
            rw [show PruneAction.backup d.Nspace d.Name ::
                PruneAction.delete d.Nspace d.Name ::
                (pruneDashboards env dry skipTags used rest).2 =
              [PruneAction.backup d.Nspace d.Name,
                PruneAction.delete d.Nspace d.Name] ++
                (pruneDashboards env dry skipTags used rest).2 from rfl,
              List.getLast?_append, hlast]
            rfl
      · have hd' : env.deleteOk d.Nspace d.Name = false := by
          revert hd; cases env.deleteOk d.Nspace d.Name <;> simp
        rw [pruneDashboards_cons_deleteFail rest h1 h2 h3 h4 hname hb hd'] at h ⊢
        simp only [List.mem_cons, List.not_mem_nil, or_false] at h
        rcases h with h | h
        · simp only [PruneAction.backup.injEq] at h
          obtain ⟨hns, hn⟩ := h
          subst hns
          subst hn
          rw [hb] at hfail
          exact Bool.noConfusion hfail
        · exact absurd h (by simp)
    · have hb' : env.backupOk d.Nspace d.Name = false := by
        revert hb; cases env.backupOk d.Nspace d.Name <;> simp
      rw [pruneDashboards_cons_backupFail rest h1 h2 h3 h4 hname hb'] at h ⊢
      simp only [List.mem_cons, List.not_mem_nil, or_false] at h
      simp only [PruneAction.backup.injEq] at h
      obtain ⟨hns, hn⟩ := h
      subst hns
      subst hn
      exact ⟨⟨_, rfl⟩, by simp, rfl⟩

/-- C7.  In every prune run: (1) every delete call for a dashboard is
strictly preceded in the run's action trace by the backup call for that
dashboard; (2) if a dashboard's backup call failed, the run aborted with an
error, no delete for that dashboard was ever attempted, and that backup is
the final action of the run — no subsequent dashboard was processed. -/
theorem C7_theorem (env : PruneEnv) (dry : Bool) (skipTags : List String)
    (all : Except String (List Dashboard))
    (used : Except String (List DashboardReads)) :
    (∀ ns n,
      PruneAction.delete ns n ∈ (prune env dry skipTags all used).2 →
      ∃ t₁ t₂, (prune env dry skipTags all used).2 =
        t₁ ++ PruneAction.backup ns n :: t₂ ∧
        PruneAction.delete ns n ∈ t₂) ∧
    (∀ ns n,
      PruneAction.backup ns n ∈ (prune env dry skipTags all used).2 →
      env.backupOk ns n = false →
      (∃ e, (prune env dry skipTags all used).1 = .error e) ∧
      PruneAction.delete ns n ∉ (prune env dry skipTags all used).2 ∧
      (prune env dry skipTags all used).2.getLast? =
        some (PruneAction.backup ns n)) := by
  cases all with
  | error e =>
    exact ⟨fun ns n h => absurd h (by simp [prune]),
      fun ns n h => absurd h (by simp [prune])⟩
  | ok ds =>
    cases used with
    | error e =>
      exact ⟨fun ns n h => absurd h (by simp [prune]),
        fun ns n h => absurd h (by simp [prune])⟩
    | ok ul =>
      exact ⟨fun ns n h =>
          pruneDashboards_delete_after_backup env dry skipTags ul ds ns n h,
        fun ns n h hfail =>
          pruneDashboards_backup_fail env dry skipTags ul ds ns n h hfail⟩

/-- Environments and dashboard for the C7 witness: one run whose backup and
delete both succeed, and one run whose backup fails. -/
def c7OkEnv : PruneEnv := ⟨fun _ _ => true, fun _ _ => true⟩

def c7FailEnv : PruneEnv := ⟨fun _ _ => false, fun _ _ => true⟩

def c7Dashboard : Dashboard := ⟨"d", "n", "u1", "D", [], "{}", none⟩

theorem C7_witness :
    (∃ t₁ t₂,
      (prune c7OkEnv false [] (.ok [c7Dashboard]) (.ok [])).2 =
        t₁ ++ PruneAction.backup "n" "d" :: t₂ ∧
        PruneAction.delete "n" "d" ∈ t₂) ∧
    ((∃ e, (prune c7FailEnv false [] (.ok [c7Dashboard]) (.ok [])).1 =
        .error e) ∧
      PruneAction.delete "n" "d" ∉
        (prune c7FailEnv false [] (.ok [c7Dashboard]) (.ok [])).2 ∧
      (prune c7FailEnv false [] (.ok [c7Dashboard]) (.ok [])).2.getLast? =
        some (PruneAction.backup "n" "d")) :=
  ⟨(C7_theorem c7OkEnv false [] (.ok [c7Dashboard]) (.ok [])).1 "n" "d"
      (by decide),
    (C7_theorem c7FailEnv false [] (.ok [c7Dashboard]) (.ok [])).2 "n" "d"
      (by decide) rfl⟩

/-- The remote calls the GitHub backup client can make. -/
inductive GitHubAction where
  | getContents (path : String)
  | createFile (path : String)
  | updateFile (path : String) (sha : String)
deriving DecidableEq

/-- Outcomes of the GitHub API calls: the existence check either returns the
existing file's SHA or fails with the HTTP status of the response when one
exists (`none` models a transport error with no response); create and update
succeed or fail per path. -/
structure GitHubEnv where
  getContents : String → Except (Option Nat) String
  createOk : String → Bool
  updateOk : String → Bool

/-- The deterministic archive path `BackUpDashboard` derives from the
configured directory and the dashboard's namespace and name. -/
def backupPath (directory nspace name : String) : String :=
  directory ++ "/" ++ nspace ++ "/" ++ name ++ ".json"

/-- Model of `github.Client.createFile`: one CreateFile call; its failure is wrapped
as a creation error. -/
def createFile (env : GitHubEnv) (path : String) :
    Except String Unit × List GitHubAction :=
  if env.createOk path then (.ok (), [.createFile path])
  else (.error "creating file", [.createFile path])

/-- Model of `github.Client.updateFile`: one UpdateFile call carrying the SHA of the
existing object; its failure is wrapped as an update error. -/
def updateFile (env : GitHubEnv) (path sha : String) :
    Except String Unit × List GitHubAction :=
  if env.updateOk path then (.ok (), [.updateFile path sha])
  else (.error "updating file", [.updateFile path sha])

/-- Model of `github.Client.BackUpDashboard`: check whether the archive file exists at
the deterministic path; a 404 response leads to a create, success leads to
an update carrying the existing SHA, and any other failure aborts without a
create or update call. -/
def BackUpDashboard (env : GitHubEnv) (directory nspace name : String) :
    Except String Unit × List GitHubAction :=
  match env.getContents (backupPath directory nspace name) with
  | .error code =>
    if code = some 404 then
      ((createFile env (backupPath directory nspace name)).1,
        .getContents (backupPath directory nspace name) ::
          (createFile env (backupPath directory nspace name)).2)
    else
      (.error "checking if file exists",
        [.getContents (backupPath directory nspace name)])
  | .ok sha =>
    ((updateFile env (backupPath directory nspace name) sha).1,
      .getContents (backupPath directory nspace name) ::
        (updateFile env (backupPath directory nspace name) sha).2)

/-- C8.  (1) A 404 from the existence check is not an error: the file is
created, and the call fails only if the create itself fails; (2) when the
check finds the file, it is updated and the update carries the existing
object's SHA; (3) any other failure of the check aborts the backup with an
error, with neither a create nor an update performed. -/
theorem C8_theorem (env : GitHubEnv) (directory nspace name : String) :
    (env.getContents (backupPath directory nspace name) =
        .error (some 404) →
      BackUpDashboard env directory nspace name =
        ((if env.createOk (backupPath directory nspace name) then .ok ()
          else .error "creating file"),
          [.getContents (backupPath directory nspace name),
            .createFile (backupPath directory nspace name)])) ∧
    (∀ sha, env.getContents (backupPath directory nspace name) = .ok sha →
      BackUpDashboard env directory nspace name =
        ((if env.updateOk (backupPath directory nspace name) then .ok ()
          else .error "updating file"),
          [.getContents (backupPath directory nspace name),
            .updateFile (backupPath directory nspace name) sha])) ∧
    (∀ code, env.getContents (backupPath directory nspace name) =
        .error code → code ≠ some 404 →
      BackUpDashboard env directory nspace name =
        (.error "checking if file exists",
          [.getContents (backupPath directory nspace name)])) := by
  refine ⟨?_, ?_, ?_⟩
  · intro hget
    unfold BackUpDashboard createFile
    rw [hget]
    by_cases hc : env.createOk (backupPath directory nspace name) = true
    · simp [hc]
    · simp only [hc, if_false]
      simp
  · intro sha hget
    unfold BackUpDashboard updateFile
    rw [hget]
    by_cases hu : env.updateOk (backupPath directory nspace name) = true
    · simp [hu]
    · simp only [hu, if_false]
      simp
  · intro code hget hcode
    unfold BackUpDashboard
    rw [hget]
    simp [hcode]

/-- Environments for the C8 witness: a 404 then a successful create, an
existing file with SHA "abc123" then an update, and a 500 from the check. -/
def c8Env404 : GitHubEnv :=
  ⟨fun _ => .error (some 404), fun _ => true, fun _ => true⟩

def c8EnvFound : GitHubEnv :=
  ⟨fun _ => .ok "abc123", fun _ => true, fun _ => true⟩

def c8Env500 : GitHubEnv :=
  ⟨fun _ => .error (some 500), fun _ => true, fun _ => true⟩

theorem C8_witness :
    BackUpDashboard c8Env404 "backups" "n" "d" =
      (.ok (), [.getContents (backupPath "backups" "n" "d"),
        .createFile (backupPath "backups" "n" "d")]) ∧
    BackUpDashboard c8EnvFound "backups" "n" "d" =
      (.ok (), [.getContents (backupPath "backups" "n" "d"),
        .updateFile (backupPath "backups" "n" "d") "abc123"]) ∧
    BackUpDashboard c8Env500 "backups" "n" "d" =
      (.error "checking if file exists",
        [.getContents (backupPath "backups" "n" "d")]) :=
  ⟨(C8_theorem c8Env404 "backups" "n" "d").1 rfl,
   (C8_theorem c8EnvFound "backups" "n" "d").2.1 "abc123" rfl,
   (C8_theorem c8Env500 "backups" "n" "d").2.2 (some 500) rfl (by decide)⟩
